import Mathlib

/-!
Verification of the FT8 forward-error-correction core (ldpc_check,
ldpc_decode, ldpc_decode_log, fast_tanh, ft8_crc, gauss_jordan) against its
specification.  The C code is embedded shallowly: C arrays become total
functions on natural-number indices, C float arithmetic is modelled by exact
rational arithmetic, and the two transcendental library calls expl and log
are modelled by arbitrary function parameters (the control-flow claims hold
for every choice of these functions).  The parity tables Nm (83 x 7,
one-based, 0 meaning absent) and Mn (174 x 3, one-based) live in arrays.h,
which is not among the sources, so every definition takes them as
parameters, exactly as described by the spec.
-/

namespace FT8

/-- The inner loop of ldpc_check: XOR of the codeword bits listed by
check j.  An Nm entry of 0 gives index -1 and is skipped, as in the
source. -/
def checkXor (Nm : ℕ → ℕ → ℕ) (codeword : ℕ → ℕ) (j : ℕ) : ℕ :=
  (List.range 7).foldl (fun x ii1 =>
    if 0 ≤ (Nm j ii1 : ℤ) - 1 then x ^^^ codeword ((Nm j ii1 : ℤ) - 1).toNat
    else x) 0

/-- Embedding of ldpc_check: count, over the 83 parity checks, how many
XOR equations are satisfied by the hard codeword. -/
def ldpc_check (Nm : ℕ → ℕ → ℕ) (codeword : ℕ → ℕ) : ℕ :=
  (List.range 83).foldl (fun score j =>
    if checkXor Nm codeword j = 0 then score + 1 else score) 0

/-- Pointwise update of a two-dimensional array modelled as a function. -/
def upd2 (f : ℕ → ℕ → ℚ) (j i : ℕ) (v : ℚ) : ℕ → ℕ → ℚ :=
  fun j' i' => if j' = j ∧ i' = i then v else f j' i'

/-- The guarded probability combination used by ldpc_decode in both the
hard-decision step and the variable-update step: if q0 is zero the result
is 1, otherwise 1 / (1 + q1 / q0).  Taken verbatim from the source. -/
def ldpcDiv (q0 q1 : ℚ) : ℚ :=
  if q0 = 0 then 1 else 1 / (1 + q1 / q0)

/-- Division that reports an attempt to divide by zero, used to state the
numerical-safety claim about the q1 / q0 division of ldpc_decode. -/
def safeDiv (a b : ℚ) : Option ℚ :=
  if b = 0 then none else some (a / b)

/-- The guarded probability combination with the q1 / q0 division
instrumented by safeDiv; it mirrors ldpcDiv step for step. -/
def ldpcDivChecked (q0 q1 : ℚ) : Option ℚ :=
  if q0 = 0 then some 1 else (safeDiv q1 q0).map (fun t => 1 / (1 + t))

/-- The body of the check-node update of ldpc_decode for one check j:
for each listed variable i1, the product a of the signed probabilities
of the other listed variables is formed and e[j][i1] becomes
0.5 + 0.5 * a.  Entries not written keep their previous value, as in the
source. -/
def checkUpdateProbStep (Nm : ℕ → ℕ → ℕ) (m : ℕ → ℕ → ℚ) (e : ℕ → ℕ → ℚ)
    (j : ℕ) : ℕ → ℕ → ℚ :=
  (List.range 7).foldl (fun e ii1 =>
    if (Nm j ii1 : ℤ) - 1 < 0 then e
    else
      upd2 e j ((Nm j ii1 : ℤ) - 1).toNat
        (1/2 + 1/2 * (List.range 7).foldl (fun a ii2 =>
          if 0 ≤ (Nm j ii2 : ℤ) - 1 ∧ (Nm j ii2 : ℤ) - 1 ≠ (Nm j ii1 : ℤ) - 1
          then a * (1 - 2 * (1 - m j ((Nm j ii2 : ℤ) - 1).toNat)) else a)
          1)) e

/-- Check-node update of ldpc_decode over all 83 checks. -/
def checkUpdateProb (Nm : ℕ → ℕ → ℕ) (m e : ℕ → ℕ → ℚ) : ℕ → ℕ → ℚ :=
  (List.range 83).foldl (checkUpdateProbStep Nm m) e

/-- Hard-decision bit of ldpc_decode for variable i: multiply the channel
probability by the three incoming check messages, apply the guarded
division, and decide 1 when the resulting probability of zero is at most
one half. -/
def hardCWProb (Mn : ℕ → ℕ → ℕ) (codeword : ℕ → ℚ) (e : ℕ → ℕ → ℚ)
    (i : ℕ) : ℕ :=
  let q := (List.range 3).foldl (fun q j =>
    let j2 := Mn i j - 1
    (q.1 * e j2 i, q.2 * (1 - e j2 i))) (codeword i, 1 - codeword i)
  if ldpcDiv q.1 q.2 ≤ 1/2 then 1 else 0

/-- Variable-node update of ldpc_decode: m[j1][i] becomes the guarded
combination of the channel probability with the messages of the other two
checks of variable i.  Entries not written keep their previous value. -/
def varUpdateProb (Mn : ℕ → ℕ → ℕ) (codeword : ℕ → ℚ) (e : ℕ → ℕ → ℚ)
    (m : ℕ → ℕ → ℚ) : ℕ → ℕ → ℚ :=
  (List.range 174).foldl (fun m i =>
    (List.range 3).foldl (fun m ji1 =>
      let j1 := Mn i ji1 - 1
      let q := (List.range 3).foldl (fun q ji2 =>
        let j2 := Mn i ji2 - 1
        if j1 ≠ j2 then (q.1 * e j2 i, q.2 * (1 - e j2 i)) else q)
        (codeword i, 1 - codeword i)
      upd2 m j1 i (ldpcDiv q.1 q.2)) m) m

/-- Channel probability of zero used by ldpc_decode, p = ex / (1 + ex)
with ex the (modelled) exponential of the log likelihood. -/
def probCodeword (rexp : ℚ → ℚ) (llcodeword : ℕ → ℚ) : ℕ → ℚ :=
  fun i => rexp (llcodeword i) / (1 + rexp (llcodeword i))

/-- One iteration of ldpc_decode: check update, hard decision, and the
next message state (variable update plus the persisting e matrix). -/
def probStep (Nm Mn : ℕ → ℕ → ℕ) (codeword : ℕ → ℚ)
    (s : (ℕ → ℕ → ℚ) × (ℕ → ℕ → ℚ)) :
    (ℕ → ℕ) × ((ℕ → ℕ → ℚ) × (ℕ → ℕ → ℚ)) :=
  let e := checkUpdateProb Nm s.1 s.2
  (fun i => hardCWProb Mn codeword e i,
   (varUpdateProb Mn codeword e s.1, e))

/-- Initial message state of ldpc_decode: every m[j][i] is the channel
probability of variable i and every e[j][i] is zero. -/
def probInit (codeword : ℕ → ℚ) : (ℕ → ℕ → ℚ) × (ℕ → ℕ → ℚ) :=
  (fun _j i => codeword i, fun _j _i => 0)

/-- The iteration loop shared by both decoders: run up to the iteration
budget; on a hard decision passing all 83 checks return it with ok = 83 at
once, otherwise keep the strictly better of score and best and continue;
on exhaustion return the best-so-far pair. -/
def bpLoop {σ : Type} (Nm : ℕ → ℕ → ℕ) (step : σ → (ℕ → ℕ) × σ) :
    ℕ → σ → ℤ → (ℕ → ℕ) → (ℕ → ℕ) × ℤ
  | 0, _s, best, bcw => (bcw, best)
  | n + 1, s, best, bcw =>
    if ldpc_check Nm (step s).1 = 83 then ((step s).1, 83)
    else
      bpLoop Nm step n (step s).2
        (if (ldpc_check Nm (step s).1 : ℤ) > best
         then (ldpc_check Nm (step s).1 : ℤ) else best)
        (if (ldpc_check Nm (step s).1 : ℤ) > best then (step s).1 else bcw)

/-- The output buffer plain after the decoder copied res into its first
174 entries; entries beyond 174 keep the caller-supplied contents. -/
def plainOut (plain0 res : ℕ → ℕ) : ℕ → ℕ :=
  fun i => if i < 174 then res i else plain0 i

/-- Embedding of ldpc_decode.  rexp models the C library call expl,
plain0 models the caller-supplied output buffer, and best_cw0 models the
uninitialised stack array best_cw.  The result carries the (untouched)
input array, the output buffer, and ok. -/
def ldpc_decode (Nm Mn : ℕ → ℕ → ℕ) (rexp : ℚ → ℚ) (llcodeword : ℕ → ℚ)
    (iters : ℕ) (plain0 best_cw0 : ℕ → ℕ) : (ℕ → ℚ) × (ℕ → ℕ) × ℤ :=
  let codeword := probCodeword rexp llcodeword
  let r := bpLoop Nm (probStep Nm Mn codeword) iters (probInit codeword)
    (-1) best_cw0
  (llcodeword, plainOut plain0 r.1, r.2)

/-- Embedding of fast_tanh: saturate to -0.999 below -7.6 and to 0.999
above 7.6, otherwise evaluate the 7/6 rational polynomial. -/
def fast_tanh (x : ℚ) : ℚ :=
  if x < -(76/10) then -(999/1000)
  else if x > 76/10 then 999/1000
  else
    let x2 := x * x
    let a := x * (135135 + x2 * (17325 + x2 * (378 + x2)))
    let b := 135135 + x2 * (62370 + x2 * (3150 + x2 * 28))
    a / b

/-- The clamped two-atanh of ldpc_decode_log: results at least 0.999 give
7.6, results at most -0.999 give -7.6, and otherwise log((1+a)/(1-a)) is
taken, with rlog modelling the C library call log. -/
def clampLog (rlog : ℚ → ℚ) (a : ℚ) : ℚ :=
  if a ≥ 999/1000 then 76/10
  else if a ≤ -(999/1000) then -(76/10)
  else rlog ((1 + a) / (1 - a))

/-- Logarithm instrumented to report a non-positive argument, used to
state the numerical-safety claim about ldpc_decode_log. -/
def safeLog (rlog : ℚ → ℚ) (x : ℚ) : Option ℚ :=
  if x ≤ 0 then none else some (rlog x)

/-- The clamped two-atanh with the log call instrumented by safeLog; it
mirrors clampLog step for step. -/
def clampLogChecked (rlog : ℚ → ℚ) (a : ℚ) : Option ℚ :=
  if a ≥ 999/1000 then some (76/10)
  else if a ≤ -(999/1000) then some (-(76/10))
  else safeLog rlog ((1 + a) / (1 - a))

/-- The body of the check-node update of ldpc_decode_log for one check
j: a is the product of fast_tanh of half the incoming messages of the
other listed variables, and e[j][i1] becomes the clamped two-atanh of
a. -/
def checkUpdateLogStep (Nm : ℕ → ℕ → ℕ) (rlog : ℚ → ℚ) (m : ℕ → ℕ → ℚ)
    (e : ℕ → ℕ → ℚ) (j : ℕ) : ℕ → ℕ → ℚ :=
  (List.range 7).foldl (fun e ii1 =>
    if (Nm j ii1 : ℤ) - 1 < 0 then e
    else
      upd2 e j ((Nm j ii1 : ℤ) - 1).toNat
        (clampLog rlog ((List.range 7).foldl (fun a ii2 =>
          if 0 ≤ (Nm j ii2 : ℤ) - 1 ∧ (Nm j ii2 : ℤ) - 1 ≠ (Nm j ii1 : ℤ) - 1
          then a * fast_tanh (m j ((Nm j ii2 : ℤ) - 1).toNat / 2) else a)
          1))) e

/-- Check-node update of ldpc_decode_log over all 83 checks. -/
def checkUpdateLog (Nm : ℕ → ℕ → ℕ) (rlog : ℚ → ℚ) (m e : ℕ → ℕ → ℚ) :
    ℕ → ℕ → ℚ :=
  (List.range 83).foldl (checkUpdateLogStep Nm rlog m) e

/-- Hard-decision bit of ldpc_decode_log for variable i: sum the channel
log likelihood with the three incoming check messages and decide 1 when
the sum is at most zero. -/
def hardCWLog (Mn : ℕ → ℕ → ℕ) (llcodeword : ℕ → ℚ) (e : ℕ → ℕ → ℚ)
    (i : ℕ) : ℕ :=
  let l := (List.range 3).foldl (fun l j => l + e (Mn i j - 1) i)
    (llcodeword i)
  if l ≤ 0 then 1 else 0

/-- Variable-node update of ldpc_decode_log: m[j1][i] becomes the channel
log likelihood plus the messages of the other two checks of variable i. -/
def varUpdateLog (Mn : ℕ → ℕ → ℕ) (llcodeword : ℕ → ℚ) (e : ℕ → ℕ → ℚ)
    (m : ℕ → ℕ → ℚ) : ℕ → ℕ → ℚ :=
  (List.range 174).foldl (fun m i =>
    (List.range 3).foldl (fun m ji1 =>
      let j1 := Mn i ji1 - 1
      let l := (List.range 3).foldl (fun l ji2 =>
        let j2 := Mn i ji2 - 1
        if j1 ≠ j2 then l + e j2 i else l) (llcodeword i)
      upd2 m j1 i l) m) m

/-- One iteration of ldpc_decode_log. -/
def logStep (Nm Mn : ℕ → ℕ → ℕ) (rlog : ℚ → ℚ) (llcodeword : ℕ → ℚ)
    (s : (ℕ → ℕ → ℚ) × (ℕ → ℕ → ℚ)) :
    (ℕ → ℕ) × ((ℕ → ℕ → ℚ) × (ℕ → ℕ → ℚ)) :=
  let e := checkUpdateLog Nm rlog s.1 s.2
  (fun i => hardCWLog Mn llcodeword e i,
   (varUpdateLog Mn llcodeword e s.1, e))

/-- Initial message state of ldpc_decode_log: every m[j][i] is the channel
log likelihood of variable i and every e[j][i] is zero. -/
def logInit (llcodeword : ℕ → ℚ) : (ℕ → ℕ → ℚ) × (ℕ → ℕ → ℚ) :=
  (fun _j i => llcodeword i, fun _j _i => 0)

/-- Embedding of ldpc_decode_log, with the same conventions as
ldpc_decode. -/
def ldpc_decode_log (Nm Mn : ℕ → ℕ → ℕ) (rlog : ℚ → ℚ)
    (llcodeword : ℕ → ℚ) (iters : ℕ) (plain0 best_cw0 : ℕ → ℕ) :
    (ℕ → ℚ) × (ℕ → ℕ) × ℤ :=
  let r := bpLoop Nm (logStep Nm Mn rlog llcodeword) iters
    (logInit llcodeword) (-1) best_cw0
  (llcodeword, plainOut plain0 r.1, r.2)

/-- Modelled from the spec: the sign decode of an LLR vector, bit i being
1 exactly when the log likelihood of zero is at most 0 (scenario 3 of the
spec).  No such function exists in the sources; it is needed only to state
claim C3. -/
def signDecode (llcodeword : ℕ → ℚ) : ℕ → ℕ :=
  fun i => if llcodeword i ≤ 0 then 1 else 0

/-- The new FT8 generator polynomial 0x2757 with its leading 1 bit, as
listed in the source. -/
def crcDivBits : List ℕ := [1, 1, 0, 0, 1, 1, 1, 0, 1, 0, 1, 0, 1, 1, 1]

/-- One step of the CRC reduction on the scratch array: if the bit at
position i is set, XOR the 15 generator bits into positions i .. i+14,
one position at a time as the source loop does. -/
def crcStep (s : List ℕ) (i : ℕ) : List ℕ :=
  if s.getD i 0 ≠ 0 then
    (List.range 15).foldl (fun s j =>
      s.set (i + j) ((s.getD (i + j) 0 + crcDivBits.getD j 0) % 2)) s
  else s

/-- Reduction sweep over positions 0 .. n-1, as performed by ft8_crc. -/
def crcReduce (s : List ℕ) (n : ℕ) : List ℕ :=
  (List.range n).foldl crcStep s

/-- Embedding of ft8_crc: copy the message into a scratch array extended
by 14 zero bits, sweep positions 0 .. msglen-1, and read the 14 remainder
bits into out. -/
def ft8_crc (msg1 : List ℕ) : List ℕ :=
  ((crcReduce (msg1 ++ List.replicate 14 0) msg1.length).drop msg1.length).take 14

/-- Modelled from the spec: the remainder of binary polynomial division
of a bit string by the 0x2757 generator, performed by the very reduction
loop of the code; positions 0 .. length-15 are swept and the last 14 bits
are the remainder. -/
def polyRemainder (bits : List ℕ) : List ℕ :=
  ((crcReduce bits (bits.length - 14)).drop (bits.length - 14)).take 14

/-- Swap of two entries of a one-dimensional array modelled as a
function. -/
def rowSwap {α : Type} (f : ℕ → α) (a b : ℕ) : ℕ → α :=
  fun x => if x = a then f b else if x = b then f a else f x

/-- The scan of gauss_jordan for a pivot: the first row among
row+1 .. 173 holding a 1 in column row. -/
def gjFindPivot (m : ℕ → ℕ → ZMod 2) (row : ℕ) : Option ℕ :=
  (List.range' (row + 1) (173 - row)).find? (fun row1 => decide (m row1 row = 1))

/-- Swap of two full matrix rows (the source swaps all 182 columns; the
model swaps the whole rows, and no column at 182 or beyond is ever
consulted). -/
def gjSwapRows (m : ℕ → ℕ → ZMod 2) (a b : ℕ) : ℕ → ℕ → ZMod 2 :=
  fun r c => if r = a then m b c else if r = b then m a c else m r c

/-- The elimination sweep of gauss_jordan at pivot row: every other row
holding a nonzero entry in column row gets row added to it, in row order,
exactly as the source loop does. -/
def gjEliminate (m : ℕ → ℕ → ZMod 2) (row : ℕ) : ℕ → ℕ → ZMod 2 :=
  (List.range 174).foldl (fun acc row1 =>
    if row1 = row then acc
    else if acc row1 row ≠ 0 then
      fun r c => if r = row1 then acc r c + acc row c else acc r c
    else acc) m

/-- The second half of a pivot step of gauss_jordan, after any row swap:
fail when the diagonal still holds no 1, otherwise toggle the lazily
created identity bit and eliminate the pivot column from every other
row. -/
def gjStep2 (st1 : (ℕ → ℕ → ZMod 2) × (ℕ → ℕ)) (row : ℕ) :
    Option ((ℕ → ℕ → ZMod 2) × (ℕ → ℕ)) :=
  if st1.1 row row = 1 then
    some (gjEliminate
      (fun r c => if r = row ∧ c = 91 + row then st1.1 r c + 1 else st1.1 r c)
      row, st1.2)
  else none

/-- One pivot step of gauss_jordan: bring a 1 to the diagonal by an
optional row swap (also swapping the bookkeeping array which), fail when
impossible, then toggle the lazily created identity bit and eliminate the
pivot column from every other row. -/
def gjStep (st : (ℕ → ℕ → ZMod 2) × (ℕ → ℕ)) (row : ℕ) :
    Option ((ℕ → ℕ → ZMod 2) × (ℕ → ℕ)) :=
  gjStep2
    (if st.1 row row ≠ 1 then
      match gjFindPivot st.1 row with
      | some row1 => (gjSwapRows st.1 row row1, rowSwap st.2 row row1)
      | none => st
    else st) row

/-- The pivot loop of gauss_jordan: n pivot steps starting at row r, with
the early ok = 0 return modelled by none. -/
def gjLoop : ℕ → ℕ → ((ℕ → ℕ → ZMod 2) × (ℕ → ℕ)) →
    Option ((ℕ → ℕ → ZMod 2) × (ℕ → ℕ))
  | _r, 0, st => some st
  | r, n + 1, st => (gjStep st r).bind (gjLoop (r + 1) n)

/-- Embedding of gauss_jordan with rows = 91 and cols = 174 as asserted
by the source: 91 pivot steps over the 174 x 182 matrix; some st models
ok = 1 with the final matrix and which, none models ok = 0. -/
def gauss_jordan (m : ℕ → ℕ → ZMod 2) (which : ℕ → ℕ) :
    Option ((ℕ → ℕ → ZMod 2) × (ℕ → ℕ)) :=
  gjLoop 0 91 (m, which)

/-- A left half extended by the zero right half demanded on entry, so
that columns 91 .. 181 are zero. -/
def gjAugment (L : ℕ → ℕ → ZMod 2) : ℕ → ℕ → ZMod 2 :=
  fun a c => if c < 91 then L a c else 0

/-- Identity-shaped left half used to exercise the success path of
gauss_jordan. -/
def gjIdLeft : ℕ → ℕ → ZMod 2 :=
  fun a b => if a = b then 1 else 0

/-- All-zero left half used to exercise the failure path of
gauss_jordan. -/
def gjZeroLeft : ℕ → ℕ → ZMod 2 :=
  fun _a _b => 0

/-- The state of gauss_jordan on the identity left half after k pivot
steps: the left 91 columns stay the identity pattern and the right half
holds the identity bits toggled so far. -/
def gjIdPartial (k : ℕ) : ℕ → ℕ → ZMod 2 :=
  fun a c => if c < 91 then (if a = c then 1 else 0)
    else if a < k ∧ c = 91 + a then 1 else 0

/-- The matrix returned by gauss_jordan on the identity left half. -/
def gjIdFinal : ℕ → ℕ → ZMod 2 :=
  gjIdPartial 91

/-- The invariant carried through the pivot loop: columns already
processed are unit columns, right-half columns not yet toggled are zero,
and every left-half entry is the matching entry of the original matrix
(rows already pivoted excepted) plus the right-half combination of
original rows as labelled by which. -/
def gjInv (M0 : ℕ → ℕ → ZMod 2) (p : ℕ)
    (st : (ℕ → ℕ → ZMod 2) × (ℕ → ℕ)) : Prop :=
  (∀ a b, a < 174 → b < p → st.1 a b = if a = b then 1 else 0) ∧
  (∀ a k, a < 174 → p ≤ k → k < 91 → st.1 a (91 + k) = 0) ∧
  (∀ a b, a < 174 → b < 91 →
    st.1 a b = (if a < p then 0 else M0 (st.2 a) b) +
      ∑ k ∈ Finset.range 91, st.1 a (91 + k) * M0 (st.2 k) b)

/-- Iterated numeric state of a decoder run, before iteration n. -/
def iterState {σ : Type} (step : σ → (ℕ → ℕ) × σ) (s : σ) : ℕ → σ
  | 0 => s
  | n + 1 => (step (iterState step s n)).2

/-- The hard decision computed in iteration n of a decoder run. -/
def iterCW {σ : Type} (step : σ → (ℕ → ℕ) × σ) (s : σ) (n : ℕ) : ℕ → ℕ :=
  (step (iterState step s n)).1

/-- The parity score of iteration n of a decoder run. -/
def iterScore {σ : Type} (Nm : ℕ → ℕ → ℕ) (step : σ → (ℕ → ℕ) × σ)
    (s : σ) (n : ℕ) : ℕ :=
  ldpc_check Nm (iterCW step s n)

/-- The recorded best score after n iterations of a decoder run, started
from the initial value b0. -/
def bestSeq {σ : Type} (Nm : ℕ → ℕ → ℕ) (step : σ → (ℕ → ℕ) × σ) (s : σ)
    (b0 : ℤ) : ℕ → ℤ
  | 0 => b0
  | n + 1 =>
    if (iterScore Nm step s n : ℤ) > bestSeq Nm step s b0 n
    then (iterScore Nm step s n : ℤ) else bestSeq Nm step s b0 n

/-- The recorded best codeword after n iterations of a decoder run,
started from the initial buffer w0. -/
def bestCWSeq {σ : Type} (Nm : ℕ → ℕ → ℕ) (step : σ → (ℕ → ℕ) × σ) (s : σ)
    (b0 : ℤ) (w0 : ℕ → ℕ) : ℕ → (ℕ → ℕ)
  | 0 => w0
  | n + 1 =>
    if (iterScore Nm step s n : ℤ) > bestSeq Nm step s b0 n
    then iterCW step s n else bestCWSeq Nm step s b0 w0 n

/-- An all-zero Nm table: every check has no listed variable, so every
check passes; used by witnesses. -/
def nmZero : ℕ → ℕ → ℕ := fun _j _i => 0

/-- An Mn table pointing every variable at check 1 (one-based); used by
witnesses. -/
def mnOne : ℕ → ℕ → ℕ := fun _i _j => 1

/-- A small Nm table for witnesses of the exhaust path: check 0 contains
exactly variable 1 (one-based) and check 1 contains variables 1 and 2, so
check 0 fails while every other check passes on the produced word. -/
def nmPair : ℕ → ℕ → ℕ :=
  fun j ii1 =>
    if j = 0 ∧ ii1 = 0 then 1
    else if j = 1 ∧ ii1 = 0 then 1
    else if j = 1 ∧ ii1 = 1 then 2
    else 0

/-- An Mn table pointing every variable at check 2 (one-based); used by
witnesses. -/
def mnTwo : ℕ → ℕ → ℕ := fun _i _j => 2

/-- An Nm table whose only listed entry is variable 1 (one-based) in
check 0; used by witnesses. -/
def nmSingle : ℕ → ℕ → ℕ :=
  fun j ii1 => if j = 0 ∧ ii1 = 0 then 1 else 0

section LoopLemmas

variable {σ : Type} (Nm : ℕ → ℕ → ℕ) (step : σ → (ℕ → ℕ) × σ)

theorem foldl_count_le (p : ℕ → Prop) [DecidablePred p] :
    ∀ (l : List ℕ) (s : ℕ),
      (l.foldl (fun score j => if p j then score + 1 else score) s) ≤
        s + l.length := by
  intro l
  induction l with
  | nil => intro s; simp
  | cons a t ih =>
    intro s
    simp only [List.foldl_cons, List.length_cons]
    by_cases h : p a
    · simp only [h, if_pos]
      calc t.foldl _ (s + 1) ≤ s + 1 + t.length := ih (s + 1)
        _ = s + (t.length + 1) := by omega
    · simp only [h, if_neg, not_false_iff]
      calc t.foldl _ s ≤ s + t.length := ih s
        _ ≤ s + (t.length + 1) := by omega

theorem ldpc_check_le (cw : ℕ → ℕ) : ldpc_check Nm cw ≤ 83 := by
  have h := foldl_count_le (fun j => checkXor Nm cw j = 0) (List.range 83) 0
  simpa [ldpc_check] using h

theorem checkXor_congr (cw1 cw2 : ℕ → ℕ) (j : ℕ)
    (hNm : ∀ j i, Nm j i ≤ 174) (h : ∀ i, i < 174 → cw1 i = cw2 i) :
    checkXor Nm cw1 j = checkXor Nm cw2 j := by
  unfold checkXor
  apply List.foldl_ext
  intro x ii1 _
  by_cases hle : (0 : ℤ) ≤ (Nm j ii1 : ℤ) - 1
  · rw [if_pos hle, if_pos hle, h ((Nm j ii1 : ℤ) - 1).toNat
      (by have := hNm j ii1; omega)]
  · rw [if_neg hle, if_neg hle]

theorem ldpc_check_congr (cw1 cw2 : ℕ → ℕ)
    (hNm : ∀ j i, Nm j i ≤ 174) (h : ∀ i, i < 174 → cw1 i = cw2 i) :
    ldpc_check Nm cw1 = ldpc_check Nm cw2 := by
  unfold ldpc_check
  apply List.foldl_ext
  intro score j _
  rw [checkXor_congr Nm cw1 cw2 j hNm h]

theorem iterState_shift (s : σ) (n : ℕ) :
    iterState step s (n + 1) = iterState step ((step s).2) n := by
  induction n with
  | zero => rfl
  | succ n ih =>
    rw [show iterState step s (n + 1 + 1) =
        (step (iterState step s (n + 1))).2 from rfl, ih]
    rfl

theorem iterCW_shift (s : σ) (n : ℕ) :
    iterCW step s (n + 1) = iterCW step ((step s).2) n := by
  unfold iterCW
  rw [iterState_shift]

theorem iterScore_shift (s : σ) (n : ℕ) :
    iterScore Nm step s (n + 1) = iterScore Nm step ((step s).2) n := by
  unfold iterScore
  rw [iterCW_shift]

theorem bestSeq_zero (s : σ) (b0 : ℤ) : bestSeq Nm step s b0 0 = b0 := rfl

theorem bestSeq_succ (s : σ) (b0 : ℤ) (n : ℕ) :
    bestSeq Nm step s b0 (n + 1) =
      if (iterScore Nm step s n : ℤ) > bestSeq Nm step s b0 n
      then (iterScore Nm step s n : ℤ) else bestSeq Nm step s b0 n := rfl

theorem bestCWSeq_zero (s : σ) (b0 : ℤ) (w0 : ℕ → ℕ) :
    bestCWSeq Nm step s b0 w0 0 = w0 := rfl

theorem bestCWSeq_succ (s : σ) (b0 : ℤ) (w0 : ℕ → ℕ) (n : ℕ) :
    bestCWSeq Nm step s b0 w0 (n + 1) =
      if (iterScore Nm step s n : ℤ) > bestSeq Nm step s b0 n
      then iterCW step s n else bestCWSeq Nm step s b0 w0 n := rfl

theorem bpLoop_zero (s : σ) (b : ℤ) (w : ℕ → ℕ) :
    bpLoop Nm step 0 s b w = (w, b) := rfl

theorem bpLoop_succ (n : ℕ) (s : σ) (b : ℤ) (w : ℕ → ℕ) :
    bpLoop Nm step (n + 1) s b w =
      if ldpc_check Nm (step s).1 = 83 then ((step s).1, 83)
      else bpLoop Nm step n (step s).2
        (if (ldpc_check Nm (step s).1 : ℤ) > b
         then (ldpc_check Nm (step s).1 : ℤ) else b)
        (if (ldpc_check Nm (step s).1 : ℤ) > b then (step s).1 else w) := rfl

theorem bestSeq_shift (s : σ) (b0 : ℤ) (n : ℕ) :
    bestSeq Nm step s b0 (n + 1) =
      bestSeq Nm step ((step s).2)
        (if (iterScore Nm step s 0 : ℤ) > b0 then (iterScore Nm step s 0 : ℤ)
         else b0) n := by
  induction n with
  | zero => rw [bestSeq_succ, bestSeq_zero, bestSeq_zero]
  | succ n ih =>
    rw [bestSeq_succ Nm step s b0 (n + 1), ih, iterScore_shift,
      bestSeq_succ]

theorem bestCWSeq_shift (s : σ) (b0 : ℤ) (w0 : ℕ → ℕ) (n : ℕ) :
    bestCWSeq Nm step s b0 w0 (n + 1) =
      bestCWSeq Nm step ((step s).2)
        (if (iterScore Nm step s 0 : ℤ) > b0 then (iterScore Nm step s 0 : ℤ)
         else b0)
        (if (iterScore Nm step s 0 : ℤ) > b0 then iterCW step s 0 else w0)
        n := by
  induction n with
  | zero => rw [bestCWSeq_succ, bestCWSeq_zero, bestCWSeq_zero, bestSeq_zero]
  | succ n ih =>
    rw [bestCWSeq_succ Nm step s b0 w0 (n + 1), ih, bestSeq_shift,
      iterScore_shift, iterCW_shift, bestCWSeq_succ]

theorem bpLoop_exhaust :
    ∀ (n : ℕ) (s : σ) (b : ℤ) (w : ℕ → ℕ),
      (∀ k, k < n → iterScore Nm step s k ≠ 83) →
      bpLoop Nm step n s b w =
        (bestCWSeq Nm step s b w n, bestSeq Nm step s b n) := by
  intro n
  induction n with
  | zero => intro s b w _; rfl
  | succ n ih =>
    intro s b w h
    have h0 : ldpc_check Nm (step s).1 ≠ 83 := h 0 (Nat.succ_pos n)
    rw [bpLoop_succ, if_neg h0]
    rw [ih ((step s).2) _ _
      (fun k hk => by
        have hk1 := h (k + 1) (by omega)
        rwa [iterScore_shift] at hk1)]
    rw [bestSeq_shift, bestCWSeq_shift]
    rfl

theorem bpLoop_early :
    ∀ (k n : ℕ) (s : σ) (b : ℤ) (w : ℕ → ℕ),
      k < n → iterScore Nm step s k = 83 →
      (∀ j, j < k → iterScore Nm step s j ≠ 83) →
      bpLoop Nm step n s b w = (iterCW step s k, 83) := by
  intro k
  induction k with
  | zero =>
    intro n s b w hk h83 _
    cases n with
    | zero => omega
    | succ n =>
      have h83c : ldpc_check Nm (step s).1 = 83 := h83
      rw [bpLoop_succ, if_pos h83c]
      rfl
  | succ k ih =>
    intro n s b w hk h83 hprev
    cases n with
    | zero => omega
    | succ n =>
      have h0 : ldpc_check Nm (step s).1 ≠ 83 := hprev 0 (Nat.succ_pos k)
      rw [bpLoop_succ, if_neg h0]
      rw [ih n ((step s).2) _ _ (by omega)
        (by rw [← iterScore_shift]; exact h83)
        (fun j hj => by
          rw [← iterScore_shift]
          exact hprev (j + 1) (by omega))]
      rw [iterCW_shift]

theorem bpLoop_ok :
    ∀ (n : ℕ) (s : σ) (b : ℤ) (w : ℕ → ℕ),
      (b = -1 → 1 ≤ n) →
      (b ≠ -1 → 0 ≤ b ∧ b ≤ 83 ∧ b = ldpc_check Nm w) →
      ((bpLoop Nm step n s b w).2 =
          ldpc_check Nm (bpLoop Nm step n s b w).1 ∧
        0 ≤ (bpLoop Nm step n s b w).2 ∧ (bpLoop Nm step n s b w).2 ≤ 83) := by
  intro n
  induction n with
  | zero =>
    intro s b w h1 h2
    by_cases hb : b = -1
    · exact absurd (h1 hb) (by omega)
    · obtain ⟨hb0, hb83, hbw⟩ := h2 hb
      exact ⟨hbw, hb0, hb83⟩
  | succ n ih =>
    intro s b w _h1 h2
    have hsc0 : (0 : ℤ) ≤ (ldpc_check Nm (step s).1 : ℤ) :=
      Int.natCast_nonneg _
    have hsc83 : (ldpc_check Nm (step s).1 : ℤ) ≤ 83 := by
      have hle := ldpc_check_le Nm (step s).1
      omega
    by_cases h83 : ldpc_check Nm (step s).1 = 83
    · rw [bpLoop_succ, if_pos h83]
      refine ⟨?_, ?_, ?_⟩
      · show (83 : ℤ) = (ldpc_check Nm (step s).1 : ℤ)
        rw [h83]
        norm_num
      · show (0 : ℤ) ≤ (83 : ℤ)
        norm_num
      · show (83 : ℤ) ≤ (83 : ℤ)
        exact le_refl _
    · rw [bpLoop_succ, if_neg h83]
      by_cases hgt : (ldpc_check Nm (step s).1 : ℤ) > b
      · rw [if_pos hgt, if_pos hgt]
        exact ih _ _ _ (fun hc => by omega) (fun _hc => ⟨hsc0, hsc83, rfl⟩)
      · rw [if_neg hgt, if_neg hgt]
        exact ih _ _ _ (fun hc => by omega) (fun hc => h2 (by omega))

theorem bestSeq_mono (s : σ) (b0 : ℤ) (n : ℕ) :
    bestSeq Nm step s b0 n ≤ bestSeq Nm step s b0 (n + 1) := by
  rw [bestSeq_succ]
  by_cases h : (iterScore Nm step s n : ℤ) > bestSeq Nm step s b0 n
  · rw [if_pos h]; omega
  · rw [if_neg h]

theorem bestSeq_eq_foldl_max (s : σ) (b0 : ℤ) :
    ∀ n, bestSeq Nm step s b0 n =
      ((List.range n).map (fun k => (iterScore Nm step s k : ℤ))).foldl
        max b0 := by
  intro n
  induction n with
  | zero => rfl
  | succ n ih =>
    rw [List.range_succ, List.map_append, List.foldl_append]
    simp only [List.map_cons, List.map_nil, List.foldl_cons, List.foldl_nil]
    rw [← ih, bestSeq_succ]
    by_cases h : (iterScore Nm step s n : ℤ) > bestSeq Nm step s b0 n
    · rw [if_pos h]
      omega
    · rw [if_neg h]
      omega

theorem bestSeq_check_bestCW (s : σ) (w0 : ℕ → ℕ) :
    ∀ n, 1 ≤ n →
      (ldpc_check Nm (bestCWSeq Nm step s (-1) w0 n) : ℤ) =
        bestSeq Nm step s (-1) n := by
  intro n
  induction n with
  | zero => omega
  | succ n ih =>
    intro _
    by_cases hn : 1 ≤ n
    · rw [bestSeq_succ, bestCWSeq_succ]
      by_cases h : (iterScore Nm step s n : ℤ) > bestSeq Nm step s (-1) n
      · rw [if_pos h, if_pos h]; rfl
      · rw [if_neg h, if_neg h]; exact ih hn
    · have hn0 : n = 0 := by omega
      subst hn0
      rw [bestSeq_succ, bestCWSeq_succ, bestSeq_zero, bestCWSeq_zero]
      have hpos : (0 : ℤ) ≤ (iterScore Nm step s 0 : ℤ) :=
        Int.natCast_nonneg _
      have h : (iterScore Nm step s 0 : ℤ) > (-1 : ℤ) := by omega
      rw [if_pos h, if_pos h]
      rfl

end LoopLemmas

section DecoderClaims

theorem plainOut_eq_on (p0 w : ℕ → ℕ) (i : ℕ) (hi : i < 174) :
    plainOut p0 w i = w i := by
  simp [plainOut, hi]

theorem ldpc_decode_eq_bpLoop (Nm Mn : ℕ → ℕ → ℕ) (rexp : ℚ → ℚ)
    (llcw : ℕ → ℚ) (iters : ℕ) (p0 w0 : ℕ → ℕ) :
    ldpc_decode Nm Mn rexp llcw iters p0 w0 =
      (llcw,
       plainOut p0 (bpLoop Nm (probStep Nm Mn (probCodeword rexp llcw)) iters
         (probInit (probCodeword rexp llcw)) (-1) w0).1,
       (bpLoop Nm (probStep Nm Mn (probCodeword rexp llcw)) iters
         (probInit (probCodeword rexp llcw)) (-1) w0).2) := rfl

theorem ldpc_decode_log_eq_bpLoop (Nm Mn : ℕ → ℕ → ℕ) (rlog : ℚ → ℚ)
    (llcw : ℕ → ℚ) (iters : ℕ) (p0 w0 : ℕ → ℕ) :
    ldpc_decode_log Nm Mn rlog llcw iters p0 w0 =
      (llcw,
       plainOut p0 (bpLoop Nm (logStep Nm Mn rlog llcw) iters
         (logInit llcw) (-1) w0).1,
       (bpLoop Nm (logStep Nm Mn rlog llcw) iters
         (logInit llcw) (-1) w0).2) := rfl

theorem decode_run_ok {σ : Type} (Nm : ℕ → ℕ → ℕ) (step : σ → (ℕ → ℕ) × σ)
    (s : σ) (n : ℕ) (p0 w0 : ℕ → ℕ) (hNm : ∀ j i, Nm j i ≤ 174)
    (hn : 1 ≤ n) :
    (bpLoop Nm step n s (-1) w0).2 =
      (ldpc_check Nm (plainOut p0 (bpLoop Nm step n s (-1) w0).1) : ℤ) ∧
    0 ≤ (bpLoop Nm step n s (-1) w0).2 ∧
    (bpLoop Nm step n s (-1) w0).2 ≤ 83 := by
  obtain ⟨h1, h2, h3⟩ := bpLoop_ok Nm step n s (-1) w0 (fun _ => hn)
    (fun hc => absurd rfl hc)
  refine ⟨?_, h2, h3⟩
  rw [h1]
  have hc := ldpc_check_congr Nm (plainOut p0 (bpLoop Nm step n s (-1) w0).1)
    ((bpLoop Nm step n s (-1) w0).1) hNm
    (fun i hi => plainOut_eq_on p0 _ i hi)
  exact_mod_cast (congrArg (fun z : ℕ => (z : ℤ)) hc).symm

theorem decode_run_consequence {σ : Type} (Nm : ℕ → ℕ → ℕ)
    (step : σ → (ℕ → ℕ) × σ) (s : σ) (n : ℕ) (p0 w0 : ℕ → ℕ)
    (hNm : ∀ j i, Nm j i ≤ 174)
    (h83 : (bpLoop Nm step n s (-1) w0).2 = 83) :
    ldpc_check Nm (plainOut p0 (bpLoop Nm step n s (-1) w0).1) = 83 := by
  cases n with
  | zero =>
    rw [bpLoop_zero] at h83
    have hcontra : (-1 : ℤ) = 83 := h83
    exact absurd hcontra (by decide)
  | succ n =>
    obtain ⟨h1, _, _⟩ := decode_run_ok Nm step (s := s) (n + 1) p0 w0 hNm
      (by omega)
    rw [h83] at h1
    exact_mod_cast h1.symm

/-- Claim C1: whenever the hard decision of some iteration satisfies all
83 parity checks (and no earlier iteration did, so that the loop reaches
it), both decoders copy that word into plain and return ok = 83 at once;
consequently every hard word returned with ok = 83 satisfies ldpc_check
= 83. -/
theorem ldpc_early_exit_spec
    (Nm Mn : ℕ → ℕ → ℕ) (rexp rlog : ℚ → ℚ) (llcw : ℕ → ℚ) (iters : ℕ)
    (p0 w0 : ℕ → ℕ) (hNm : ∀ j i, Nm j i ≤ 174) :
    ((∀ k, k < iters →
        iterScore Nm (probStep Nm Mn (probCodeword rexp llcw))
          (probInit (probCodeword rexp llcw)) k = 83 →
        (∀ j, j < k →
          iterScore Nm (probStep Nm Mn (probCodeword rexp llcw))
            (probInit (probCodeword rexp llcw)) j ≠ 83) →
        ldpc_decode Nm Mn rexp llcw iters p0 w0 =
          (llcw,
           plainOut p0 (iterCW (probStep Nm Mn (probCodeword rexp llcw))
             (probInit (probCodeword rexp llcw)) k), 83)) ∧
      ((ldpc_decode Nm Mn rexp llcw iters p0 w0).2.2 = 83 →
        ldpc_check Nm (ldpc_decode Nm Mn rexp llcw iters p0 w0).2.1 = 83)) ∧
    ((∀ k, k < iters →
        iterScore Nm (logStep Nm Mn rlog llcw) (logInit llcw) k = 83 →
        (∀ j, j < k →
          iterScore Nm (logStep Nm Mn rlog llcw) (logInit llcw) j ≠ 83) →
        ldpc_decode_log Nm Mn rlog llcw iters p0 w0 =
          (llcw,
           plainOut p0 (iterCW (logStep Nm Mn rlog llcw) (logInit llcw) k),
           83)) ∧
      ((ldpc_decode_log Nm Mn rlog llcw iters p0 w0).2.2 = 83 →
        ldpc_check Nm (ldpc_decode_log Nm Mn rlog llcw iters p0 w0).2.1 =
          83)) := by
  constructor
  · constructor
    · intro k hk h83 hprev
      rw [ldpc_decode_eq_bpLoop,
        bpLoop_early Nm _ k iters _ (-1) w0 hk h83 hprev]
    · intro h83
      rw [ldpc_decode_eq_bpLoop] at h83 ⊢
      exact decode_run_consequence Nm _ _ iters p0 w0 hNm h83
  · constructor
    · intro k hk h83 hprev
      rw [ldpc_decode_log_eq_bpLoop,
        bpLoop_early Nm _ k iters _ (-1) w0 hk h83 hprev]
    · intro h83
      rw [ldpc_decode_log_eq_bpLoop] at h83 ⊢
      exact decode_run_consequence Nm _ _ iters p0 w0 hNm h83

/-- Claim C10: with an iteration budget of at least 1, both decoders
return ok equal to ldpc_check of the returned plain word, on the early
and on the exhausted path alike, and hence ok always lies in [0, 83]. -/
theorem ldpc_ok_matches_check_spec
    (Nm Mn : ℕ → ℕ → ℕ) (rexp rlog : ℚ → ℚ) (llcw : ℕ → ℚ) (iters : ℕ)
    (p0 w0 : ℕ → ℕ) (hNm : ∀ j i, Nm j i ≤ 174) (hit : 1 ≤ iters) :
    ((ldpc_decode Nm Mn rexp llcw iters p0 w0).2.2 =
        (ldpc_check Nm (ldpc_decode Nm Mn rexp llcw iters p0 w0).2.1 : ℤ) ∧
      0 ≤ (ldpc_decode Nm Mn rexp llcw iters p0 w0).2.2 ∧
      (ldpc_decode Nm Mn rexp llcw iters p0 w0).2.2 ≤ 83) ∧
    ((ldpc_decode_log Nm Mn rlog llcw iters p0 w0).2.2 =
        (ldpc_check Nm (ldpc_decode_log Nm Mn rlog llcw iters p0 w0).2.1 :
          ℤ) ∧
      0 ≤ (ldpc_decode_log Nm Mn rlog llcw iters p0 w0).2.2 ∧
      (ldpc_decode_log Nm Mn rlog llcw iters p0 w0).2.2 ≤ 83) := by
  constructor
  · rw [ldpc_decode_eq_bpLoop]
    exact decode_run_ok Nm _ _ iters p0 w0 hNm hit
  · rw [ldpc_decode_log_eq_bpLoop]
    exact decode_run_ok Nm _ _ iters p0 w0 hNm hit

/-- Claim C2 (amended only in presentation): within one call the
recorded best score never decreases; on an exhausted budget the decoder
returns the best-so-far codeword, whose score equals ok, and ok is the
maximum over all iterations of the parity score of that iteration's hard
decision. -/
theorem ldpc_best_monotone_spec
    (Nm Mn : ℕ → ℕ → ℕ) (rexp rlog : ℚ → ℚ) (llcw : ℕ → ℚ) (iters : ℕ)
    (p0 w0 : ℕ → ℕ) (hNm : ∀ j i, Nm j i ≤ 174) :
    ((∀ k, bestSeq Nm (probStep Nm Mn (probCodeword rexp llcw))
        (probInit (probCodeword rexp llcw)) (-1) k ≤
      bestSeq Nm (probStep Nm Mn (probCodeword rexp llcw))
        (probInit (probCodeword rexp llcw)) (-1) (k + 1)) ∧
      (1 ≤ iters →
        (∀ k, k < iters →
          iterScore Nm (probStep Nm Mn (probCodeword rexp llcw))
            (probInit (probCodeword rexp llcw)) k ≠ 83) →
        (ldpc_decode Nm Mn rexp llcw iters p0 w0).2.2 =
            bestSeq Nm (probStep Nm Mn (probCodeword rexp llcw))
              (probInit (probCodeword rexp llcw)) (-1) iters ∧
          (ldpc_decode Nm Mn rexp llcw iters p0 w0).2.1 =
            plainOut p0 (bestCWSeq Nm (probStep Nm Mn (probCodeword rexp llcw))
              (probInit (probCodeword rexp llcw)) (-1) w0 iters) ∧
          (ldpc_decode Nm Mn rexp llcw iters p0 w0).2.2 =
            ((List.range iters).map (fun k =>
              (iterScore Nm (probStep Nm Mn (probCodeword rexp llcw))
                (probInit (probCodeword rexp llcw)) k : ℤ))).foldl max (-1) ∧
          (ldpc_check Nm (ldpc_decode Nm Mn rexp llcw iters p0 w0).2.1 : ℤ) =
            (ldpc_decode Nm Mn rexp llcw iters p0 w0).2.2)) ∧
    ((∀ k, bestSeq Nm (logStep Nm Mn rlog llcw) (logInit llcw) (-1) k ≤
      bestSeq Nm (logStep Nm Mn rlog llcw) (logInit llcw) (-1) (k + 1)) ∧
      (1 ≤ iters →
        (∀ k, k < iters →
          iterScore Nm (logStep Nm Mn rlog llcw) (logInit llcw) k ≠ 83) →
        (ldpc_decode_log Nm Mn rlog llcw iters p0 w0).2.2 =
            bestSeq Nm (logStep Nm Mn rlog llcw) (logInit llcw) (-1) iters ∧
          (ldpc_decode_log Nm Mn rlog llcw iters p0 w0).2.1 =
            plainOut p0 (bestCWSeq Nm (logStep Nm Mn rlog llcw)
              (logInit llcw) (-1) w0 iters) ∧
          (ldpc_decode_log Nm Mn rlog llcw iters p0 w0).2.2 =
            ((List.range iters).map (fun k =>
              (iterScore Nm (logStep Nm Mn rlog llcw) (logInit llcw) k :
                ℤ))).foldl max (-1) ∧
          (ldpc_check Nm (ldpc_decode_log Nm Mn rlog llcw iters p0 w0).2.1 :
              ℤ) =
            (ldpc_decode_log Nm Mn rlog llcw iters p0 w0).2.2)) := by
  have main : ∀ (σ : Type) (step : σ → (ℕ → ℕ) × σ) (s : σ),
      (∀ k, bestSeq Nm step s (-1) k ≤ bestSeq Nm step s (-1) (k + 1)) ∧
      (1 ≤ iters → (∀ k, k < iters → iterScore Nm step s k ≠ 83) →
        (bpLoop Nm step iters s (-1) w0).2 = bestSeq Nm step s (-1) iters ∧
        plainOut p0 (bpLoop Nm step iters s (-1) w0).1 =
          plainOut p0 (bestCWSeq Nm step s (-1) w0 iters) ∧
        (bpLoop Nm step iters s (-1) w0).2 =
          ((List.range iters).map
            (fun k => (iterScore Nm step s k : ℤ))).foldl max (-1) ∧
        (ldpc_check Nm (plainOut p0 (bpLoop Nm step iters s (-1) w0).1) : ℤ)
          = (bpLoop Nm step iters s (-1) w0).2) := by
    intro σ step s
    refine ⟨fun k => bestSeq_mono Nm step s (-1) k, fun hit hnoex => ?_⟩
    have hex := bpLoop_exhaust Nm step iters s (-1) w0 hnoex
    refine ⟨by rw [hex], by rw [hex], ?_, ?_⟩
    · rw [hex, ← bestSeq_eq_foldl_max]
    · rw [hex]
      have hcg := ldpc_check_congr Nm
        (plainOut p0 (bestCWSeq Nm step s (-1) w0 iters))
        (bestCWSeq Nm step s (-1) w0 iters) hNm
        (fun i hi => plainOut_eq_on p0 _ i hi)
      rw [hcg]
      exact bestSeq_check_bestCW Nm step s w0 iters hit
  constructor
  · obtain ⟨hm, he⟩ := main _ (probStep Nm Mn (probCodeword rexp llcw))
      (probInit (probCodeword rexp llcw))
    exact ⟨hm, fun hit hnoex => by
      rw [ldpc_decode_eq_bpLoop]
      exact he hit hnoex⟩
  · obtain ⟨hm, he⟩ := main _ (logStep Nm Mn rlog llcw) (logInit llcw)
    exact ⟨hm, fun hit hnoex => by
      rw [ldpc_decode_log_eq_bpLoop]
      exact he hit hnoex⟩

/-- Claim C3, amended: an iteration budget of 0 is tolerated, but the
call returns ok = -1 (the initial best score, since no iteration ever
ran) and the output buffer is a copy of the uninitialised best_cw stack
array, not the sign decode of the input. -/
theorem ldpc_iters_zero_amended
    (Nm Mn : ℕ → ℕ → ℕ) (rexp rlog : ℚ → ℚ) (llcw : ℕ → ℚ)
    (p0 w0 : ℕ → ℕ) :
    ldpc_decode Nm Mn rexp llcw 0 p0 w0 = (llcw, plainOut p0 w0, -1) ∧
    ldpc_decode_log Nm Mn rlog llcw 0 p0 w0 = (llcw, plainOut p0 w0, -1) :=
  ⟨rfl, rfl⟩

/-- Claim C3, counterexample: with a zero iteration budget the LLR
decoder returns ok = -1, which is not the parity score of the
sign-decoded input, and the returned hard word differs from the sign
decode at bit 0. -/
theorem ldpc_iters_zero_cex :
    (ldpc_decode_log nmZero mnOne (fun _ => 0) (fun _ => 0) 0
        (fun _ => 0) (fun _ => 0)).2.2 ≠
      (ldpc_check nmZero (signDecode (fun _ => 0)) : ℤ) ∧
    (ldpc_decode_log nmZero mnOne (fun _ => 0) (fun _ => 0) 0
        (fun _ => 0) (fun _ => 0)).2.1 0 ≠
      signDecode (fun _ => 0) 0 := by
  constructor
  · have h1 : (ldpc_decode_log nmZero mnOne (fun _ => 0) (fun _ => 0) 0
        (fun _ => 0) (fun _ => 0)).2.2 = -1 := rfl
    have h2 : ldpc_check nmZero (signDecode (fun _ => 0)) = 83 := by decide
    rw [h1, h2]
    decide
  · have h1 : (ldpc_decode_log nmZero mnOne (fun _ => 0) (fun _ => 0) 0
        (fun _ => 0) (fun _ => 0)).2.1 0 = 0 := rfl
    have h2 : signDecode (fun _ => 0) 0 = 1 := by
      simp [signDecode]
    rw [h1, h2]
    decide

/-- Claim C8: neither decoder modifies its input LLR array; the input
component of the threaded state is returned exactly as it was passed. -/
theorem ldpc_no_input_mutation_spec
    (Nm Mn : ℕ → ℕ → ℕ) (rexp rlog : ℚ → ℚ) (llcw : ℕ → ℚ) (iters : ℕ)
    (p0 w0 : ℕ → ℕ) :
    (ldpc_decode Nm Mn rexp llcw iters p0 w0).1 = llcw ∧
    (ldpc_decode_log Nm Mn rlog llcw iters p0 w0).1 = llcw :=
  ⟨rfl, rfl⟩

end DecoderClaims

section DecoderWitnessSupport

theorem foldl_fix {α β : Type} (f : α → β → α) (l : List β) (a : α)
    (h : ∀ x ∈ l, f a x = a) : l.foldl f a = a := by
  induction l with
  | nil => rfl
  | cons hd tl ih =>
    rw [List.foldl_cons, h hd (List.mem_cons_self hd tl)]
    exact ih (fun x hx => h x (List.mem_cons_of_mem hd hx))

theorem checkUpdateProbStep_absent (Nm : ℕ → ℕ → ℕ) (m e : ℕ → ℕ → ℚ)
    (j : ℕ) (h : ∀ ii1, ii1 < 7 → Nm j ii1 = 0) :
    checkUpdateProbStep Nm m e j = e := by
  unfold checkUpdateProbStep
  apply foldl_fix
  intro ii1 hmem
  rw [if_pos]
  rw [h ii1 (List.mem_range.mp hmem)]
  norm_num

theorem nmPair_absent (j ii1 : ℕ) (hj : 2 ≤ j) (_h7 : ii1 < 7) :
    nmPair j ii1 = 0 := by
  simp only [nmPair]
  rw [if_neg (by omega), if_neg (by omega), if_neg (by omega)]

theorem checkUpdateProb_pair (m e : ℕ → ℕ → ℚ) :
    checkUpdateProb nmPair m e =
      checkUpdateProbStep nmPair m (checkUpdateProbStep nmPair m e 0) 1 := by
  unfold checkUpdateProb
  rw [show (83 : ℕ) = 2 + 81 from rfl, List.range_add, List.foldl_append]
  rw [foldl_fix]
  · rw [show List.range 2 = [0, 1] from rfl]
    rw [List.foldl_cons, List.foldl_cons, List.foldl_nil]
  · intro x hx
    obtain ⟨k, _, hk⟩ := List.mem_map.mp hx
    apply checkUpdateProbStep_absent
    intro ii1 h7
    exact nmPair_absent x ii1 (by omega) h7

theorem cwpPair :
    probCodeword (fun _ => (1:ℚ)/3) (fun _ => 0) = fun _ => (1:ℚ)/4 := by
  funext i
  simp only [probCodeword]
  norm_num

theorem step0_eval (e : ℕ → ℕ → ℚ) :
    checkUpdateProbStep nmPair (fun _ _ => (1:ℚ)/4) e 0 = upd2 e 0 0 1 := by
  unfold checkUpdateProbStep
  rw [show List.range 7 = [0, 1, 2, 3, 4, 5, 6] from rfl]
  simp only [List.foldl_cons, List.foldl_nil, nmPair]
  norm_num

theorem step1_eval (e : ℕ → ℕ → ℚ) :
    checkUpdateProbStep nmPair (fun _ _ => (1:ℚ)/4) e 1 =
      upd2 (upd2 e 1 0 (1/4)) 1 1 (1/4) := by
  unfold checkUpdateProbStep
  rw [show List.range 7 = [0, 1, 2, 3, 4, 5, 6] from rfl]
  simp only [List.foldl_cons, List.foldl_nil, nmPair]
  norm_num

theorem epair_read (i : ℕ) :
    checkUpdateProb nmPair (fun _ _ => (1:ℚ)/4)
      ((probInit (fun _ => (1:ℚ)/4)).2) 1 i =
      if i = 0 then 1/4 else if i = 1 then 1/4 else 0 := by
  rw [checkUpdateProb_pair, step0_eval, step1_eval]
  by_cases h0 : i = 0
  · subst h0; simp [upd2, probInit]
  · by_cases h1 : i = 1
    · subst h1; simp [upd2, probInit]
    · simp [upd2, h0, h1, probInit]

theorem iterCW_zero {σ : Type} (step : σ → (ℕ → ℕ) × σ) (s : σ) :
    iterCW step s 0 = (step s).1 := rfl

theorem probStep_cw (Nm Mn : ℕ → ℕ → ℕ) (c : ℕ → ℚ)
    (s : (ℕ → ℕ → ℚ) × (ℕ → ℕ → ℚ)) :
    (probStep Nm Mn c s).1 =
      fun i => hardCWProb Mn c (checkUpdateProb Nm s.1 s.2) i := rfl

set_option maxRecDepth 40000 in
theorem cwPair_prob (i : ℕ) :
    iterCW (probStep nmPair mnTwo
        (probCodeword (fun _ => (1:ℚ)/3) (fun _ => 0)))
      (probInit (probCodeword (fun _ => (1:ℚ)/3) (fun _ => 0))) 0 i =
      if i = 0 then 1 else if i = 1 then 1 else 0 := by
  rw [iterCW_zero, probStep_cw]
  rw [cwpPair]
  rw [show (probInit fun _ => (1:ℚ)/4).1 = fun _ _ => (1:ℚ)/4 from rfl]
  unfold hardCWProb
  rw [show List.range 3 = [0, 1, 2] from rfl]
  simp only [List.foldl_cons, List.foldl_nil, mnTwo]
  simp only [show (2:ℕ) - 1 = 1 from rfl, epair_read]
  by_cases h0 : i = 0
  · subst h0
    simp only [if_pos rfl]
    unfold ldpcDiv
    norm_num
  · by_cases h1 : i = 1
    · subst h1
      simp only [if_neg h0, if_pos rfl]
      unfold ldpcDiv
      norm_num
    · simp only [if_neg h0, if_neg h1]
      unfold ldpcDiv
      norm_num

theorem checkUpdateLogStep_absent (Nm : ℕ → ℕ → ℕ) (rlog : ℚ → ℚ)
    (m e : ℕ → ℕ → ℚ) (j : ℕ) (h : ∀ ii1, ii1 < 7 → Nm j ii1 = 0) :
    checkUpdateLogStep Nm rlog m e j = e := by
  unfold checkUpdateLogStep
  apply foldl_fix
  intro ii1 hmem
  rw [if_pos]
  rw [h ii1 (List.mem_range.mp hmem)]
  norm_num

theorem checkUpdateLog_pair (rlog : ℚ → ℚ) (m e : ℕ → ℕ → ℚ) :
    checkUpdateLog nmPair rlog m e =
      checkUpdateLogStep nmPair rlog m
        (checkUpdateLogStep nmPair rlog m e 0) 1 := by
  unfold checkUpdateLog
  rw [show (83 : ℕ) = 2 + 81 from rfl, List.range_add, List.foldl_append]
  rw [foldl_fix]
  · rw [show List.range 2 = [0, 1] from rfl]
    rw [List.foldl_cons, List.foldl_cons, List.foldl_nil]
  · intro x hx
    obtain ⟨k, _, hk⟩ := List.mem_map.mp hx
    apply checkUpdateLogStep_absent
    intro ii1 h7
    exact nmPair_absent x ii1 (by omega) h7

theorem fast_tanh_zero : fast_tanh 0 = 0 := by
  unfold fast_tanh
  norm_num

theorem logstep0_eval (e : ℕ → ℕ → ℚ) :
    checkUpdateLogStep nmPair (fun _ => (0:ℚ)) (fun _ _ => (0:ℚ)) e 0 =
      upd2 e 0 0 (76/10) := by
  unfold checkUpdateLogStep
  rw [show List.range 7 = [0, 1, 2, 3, 4, 5, 6] from rfl]
  simp only [List.foldl_cons, List.foldl_nil, nmPair]
  norm_num [clampLog]

theorem logstep1_eval (e : ℕ → ℕ → ℚ) :
    checkUpdateLogStep nmPair (fun _ => (0:ℚ)) (fun _ _ => (0:ℚ)) e 1 =
      upd2 (upd2 e 1 0 0) 1 1 0 := by
  unfold checkUpdateLogStep
  rw [show List.range 7 = [0, 1, 2, 3, 4, 5, 6] from rfl]
  simp only [List.foldl_cons, List.foldl_nil, nmPair]
  norm_num [clampLog, fast_tanh_zero]

theorem epair_log_read (i : ℕ) :
    checkUpdateLog nmPair (fun _ => (0:ℚ)) ((logInit (fun _ => 0)).1)
      ((logInit (fun _ => 0)).2) 1 i = 0 := by
  rw [show (logInit (fun _ => (0:ℚ))).1 = fun _ _ => (0:ℚ) from rfl]
  rw [checkUpdateLog_pair, logstep0_eval, logstep1_eval]
  by_cases h0 : i = 0
  · subst h0; simp [upd2, logInit]
  · by_cases h1 : i = 1
    · subst h1; simp [upd2, logInit]
    · simp [upd2, h0, h1, logInit]

theorem logStep_cw (Nm Mn : ℕ → ℕ → ℕ) (rlog : ℚ → ℚ) (llcw : ℕ → ℚ)
    (s : (ℕ → ℕ → ℚ) × (ℕ → ℕ → ℚ)) :
    (logStep Nm Mn rlog llcw s).1 =
      fun i => hardCWLog Mn llcw (checkUpdateLog Nm rlog s.1 s.2) i := rfl

set_option maxRecDepth 40000 in
theorem cwPair_log (i : ℕ) :
    iterCW (logStep nmPair mnTwo (fun _ => 0) (fun _ => 0))
      (logInit (fun _ => 0)) 0 i = 1 := by
  rw [iterCW_zero, logStep_cw]
  show hardCWLog mnTwo (fun _ => 0)
    (checkUpdateLog nmPair (fun _ => 0) (logInit (fun _ => 0)).1
      (logInit (fun _ => 0)).2) i = 1
  unfold hardCWLog
  rw [show List.range 3 = [0, 1, 2] from rfl]
  simp only [List.foldl_cons, List.foldl_nil, mnTwo]
  simp only [show (2:ℕ) - 1 = 1 from rfl, epair_log_read]
  norm_num

theorem foldl_if_count (p : ℕ → Prop) [DecidablePred p] :
    ∀ (l : List ℕ) (s : ℕ),
      l.foldl (fun s j => if p j then s + 1 else s) s =
        s + l.countP (fun j => decide (p j)) := by
  intro l
  induction l with
  | nil => intro s; simp
  | cons hd tl ih =>
    intro s
    rw [List.foldl_cons, List.countP_cons]
    by_cases h : p hd
    · rw [if_pos h, ih]
      simp [h]
      omega
    · rw [if_neg h, ih]
      simp [h]

theorem ldpc_check_ne_max (Nm : ℕ → ℕ → ℕ) (cw : ℕ → ℕ) (j0 : ℕ)
    (hj0 : j0 < 83) (hfail : checkXor Nm cw j0 ≠ 0) :
    ldpc_check Nm cw ≠ 83 := by
  unfold ldpc_check
  rw [foldl_if_count (fun j => checkXor Nm cw j = 0) (List.range 83) 0]
  intro h
  have hlen : (List.range 83).countP
      (fun j => decide (checkXor Nm cw j = 0)) = (List.range 83).length := by
    rw [List.length_range]
    omega
  have hall := List.countP_eq_length.mp hlen j0 (List.mem_range.mpr hj0)
  simp only [decide_eq_true_eq] at hall
  exact hfail hall

theorem checkXor_nmPair_zero (cw : ℕ → ℕ) : checkXor nmPair cw 0 = cw 0 := by
  unfold checkXor
  rw [show List.range 7 = [0, 1, 2, 3, 4, 5, 6] from rfl]
  simp only [List.foldl_cons, List.foldl_nil, nmPair]
  norm_num

theorem witness_prob_ne :
    iterScore nmPair
      (probStep nmPair mnTwo (probCodeword (fun _ => (1:ℚ)/3) (fun _ => 0)))
      (probInit (probCodeword (fun _ => (1:ℚ)/3) (fun _ => 0))) 0 ≠ 83 := by
  unfold iterScore
  apply ldpc_check_ne_max nmPair _ 0 (by omega)
  rw [checkXor_nmPair_zero, cwPair_prob]
  norm_num

theorem witness_log_ne :
    iterScore nmPair (logStep nmPair mnTwo (fun _ => 0) (fun _ => 0))
      (logInit (fun _ => 0)) 0 ≠ 83 := by
  unfold iterScore
  apply ldpc_check_ne_max nmPair _ 0 (by omega)
  rw [checkXor_nmPair_zero, cwPair_log]
  norm_num

theorem nmPair_le (j i : ℕ) : nmPair j i ≤ 174 := by
  unfold nmPair
  split
  · omega
  · split
    · omega
    · split <;> omega

end DecoderWitnessSupport

section DecoderWitnesses

/-- Witness for C1: on the all-absent table every check passes, so both
decoders exit in iteration 0 with ok = 83, emitting that iteration's
hard decision. -/
theorem ldpc_early_exit_witness :
    (∀ j i, nmZero j i ≤ 174) ∧
    iterScore nmZero
      (probStep nmZero mnOne (probCodeword (fun _ => 1) (fun _ => 0)))
      (probInit (probCodeword (fun _ => 1) (fun _ => 0))) 0 = 83 ∧
    iterScore nmZero (logStep nmZero mnOne (fun _ => 0) (fun _ => 0))
      (logInit (fun _ => 0)) 0 = 83 ∧
    ldpc_decode nmZero mnOne (fun _ => 1) (fun _ => 0) 1
        (fun _ => 0) (fun _ => 0) =
      ((fun _ => 0),
       plainOut (fun _ => 0)
         (iterCW (probStep nmZero mnOne
             (probCodeword (fun _ => 1) (fun _ => 0)))
           (probInit (probCodeword (fun _ => 1) (fun _ => 0))) 0), 83) ∧
    ldpc_decode_log nmZero mnOne (fun _ => 0) (fun _ => 0) 1
        (fun _ => 0) (fun _ => 0) =
      ((fun _ => 0),
       plainOut (fun _ => 0)
         (iterCW (logStep nmZero mnOne (fun _ => 0) (fun _ => 0))
           (logInit (fun _ => 0)) 0), 83) := by
  have hNm : ∀ j i, nmZero j i ≤ 174 := fun j i => by simp [nmZero]
  have hp : iterScore nmZero
      (probStep nmZero mnOne (probCodeword (fun _ => 1) (fun _ => 0)))
      (probInit (probCodeword (fun _ => 1) (fun _ => 0))) 0 = 83 := by decide
  have hl : iterScore nmZero (logStep nmZero mnOne (fun _ => 0) (fun _ => 0))
      (logInit (fun _ => 0)) 0 = 83 := by decide
  refine ⟨hNm, hp, hl, ?_, ?_⟩
  · exact ((ldpc_early_exit_spec nmZero mnOne (fun _ => 1) (fun _ => 0)
      (fun _ => 0) 1 (fun _ => 0) (fun _ => 0) hNm).1).1 0 (by omega) hp
      (fun j hj => absurd hj (by omega))
  · exact ((ldpc_early_exit_spec nmZero mnOne (fun _ => 1) (fun _ => 0)
      (fun _ => 0) 1 (fun _ => 0) (fun _ => 0) hNm).2).1 0 (by omega) hl
      (fun j hj => absurd hj (by omega))

/-- Witness for C10: the zero-table run of both decoders with one
iteration, on which ok equals the check of the returned word and lies in
[0, 83]. -/
theorem ldpc_ok_matches_check_witness :
    (∀ j i, nmZero j i ≤ 174) ∧ (1 : ℕ) ≤ 1 ∧
    (((ldpc_decode nmZero mnOne (fun _ => 1) (fun _ => 0) 1
          (fun _ => 0) (fun _ => 0)).2.2 =
        (ldpc_check nmZero
          (ldpc_decode nmZero mnOne (fun _ => 1) (fun _ => 0) 1
            (fun _ => 0) (fun _ => 0)).2.1 : ℤ) ∧
      0 ≤ (ldpc_decode nmZero mnOne (fun _ => 1) (fun _ => 0) 1
          (fun _ => 0) (fun _ => 0)).2.2 ∧
      (ldpc_decode nmZero mnOne (fun _ => 1) (fun _ => 0) 1
          (fun _ => 0) (fun _ => 0)).2.2 ≤ 83) ∧
     ((ldpc_decode_log nmZero mnOne (fun _ => 0) (fun _ => 0) 1
          (fun _ => 0) (fun _ => 0)).2.2 =
        (ldpc_check nmZero
          (ldpc_decode_log nmZero mnOne (fun _ => 0) (fun _ => 0) 1
            (fun _ => 0) (fun _ => 0)).2.1 : ℤ) ∧
      0 ≤ (ldpc_decode_log nmZero mnOne (fun _ => 0) (fun _ => 0) 1
          (fun _ => 0) (fun _ => 0)).2.2 ∧
      (ldpc_decode_log nmZero mnOne (fun _ => 0) (fun _ => 0) 1
          (fun _ => 0) (fun _ => 0)).2.2 ≤ 83)) := by
  have hNm : ∀ j i, nmZero j i ≤ 174 := fun j i => by simp [nmZero]
  exact ⟨hNm, by omega,
    ldpc_ok_matches_check_spec nmZero mnOne (fun _ => 1) (fun _ => 0)
      (fun _ => 0) 1 (fun _ => 0) (fun _ => 0) hNm (by omega)⟩

/-- Witness for C2: the nmPair tables, on which iteration 0 of both
decoders scores 82, so the loop exhausts its budget of one and returns
the recorded best. -/
theorem ldpc_best_monotone_witness :
    (∀ j i, nmPair j i ≤ 174) ∧ (1 : ℕ) ≤ 1 ∧
    iterScore nmPair
      (probStep nmPair mnTwo (probCodeword (fun _ => (1:ℚ)/3) (fun _ => 0)))
      (probInit (probCodeword (fun _ => (1:ℚ)/3) (fun _ => 0))) 0 ≠ 83 ∧
    iterScore nmPair (logStep nmPair mnTwo (fun _ => 0) (fun _ => 0))
      (logInit (fun _ => 0)) 0 ≠ 83 ∧
    (ldpc_decode nmPair mnTwo (fun _ => (1:ℚ)/3) (fun _ => 0) 1
        (fun _ => 0) (fun _ => 0)).2.2 =
      bestSeq nmPair
        (probStep nmPair mnTwo
          (probCodeword (fun _ => (1:ℚ)/3) (fun _ => 0)))
        (probInit (probCodeword (fun _ => (1:ℚ)/3) (fun _ => 0))) (-1) 1 ∧
    (ldpc_decode_log nmPair mnTwo (fun _ => 0) (fun _ => 0) 1
        (fun _ => 0) (fun _ => 0)).2.2 =
      bestSeq nmPair (logStep nmPair mnTwo (fun _ => 0) (fun _ => 0))
        (logInit (fun _ => 0)) (-1) 1 := by
  have hNm := nmPair_le
  have hpr : ∀ k, k < 1 →
      iterScore nmPair
        (probStep nmPair mnTwo
          (probCodeword (fun _ => (1:ℚ)/3) (fun _ => 0)))
        (probInit (probCodeword (fun _ => (1:ℚ)/3) (fun _ => 0))) k ≠ 83 := by
    intro k hk
    have hk0 : k = 0 := by omega
    subst hk0
    exact witness_prob_ne
  have hlg : ∀ k, k < 1 →
      iterScore nmPair (logStep nmPair mnTwo (fun _ => 0) (fun _ => 0))
        (logInit (fun _ => 0)) k ≠ 83 := by
    intro k hk
    have hk0 : k = 0 := by omega
    subst hk0
    exact witness_log_ne
  refine ⟨hNm, by omega, witness_prob_ne, witness_log_ne, ?_, ?_⟩
  · exact (((ldpc_best_monotone_spec nmPair mnTwo (fun _ => (1:ℚ)/3)
      (fun _ => 0) (fun _ => 0) 1 (fun _ => 0) (fun _ => 0) hNm).1).2
      (by omega) hpr).1
  · exact (((ldpc_best_monotone_spec nmPair mnTwo (fun _ => (1:ℚ)/3)
      (fun _ => 0) (fun _ => 0) 1 (fun _ => 0) (fun _ => 0) hNm).2).2
      (by omega) hlg).1

end DecoderWitnesses

section GuardClaims

/-- Claim C6: the q1 / q0 division of the hard-decision and
variable-update steps of ldpc_decode is evaluated only under the q0 = 0
guard (the instrumented form never reports a division by zero and agrees
with the decoder's value), the log of ldpc_decode_log is evaluated only
in the unclamped branch (the instrumented form never reports a
non-positive argument and agrees with the decoder's value), and in that
branch both 1 + a and 1 - a are strictly positive. -/
theorem ldpc_numeric_guards_spec :
    (∀ q0 q1 : ℚ, ldpcDivChecked q0 q1 = some (ldpcDiv q0 q1)) ∧
    (∀ (rlog : ℚ → ℚ) (a : ℚ),
      clampLogChecked rlog a = some (clampLog rlog a)) ∧
    (∀ a : ℚ, ¬(a ≥ 999/1000) → ¬(a ≤ -(999/1000)) →
      0 < 1 + a ∧ 0 < 1 - a) := by
  refine ⟨?_, ?_, ?_⟩
  · intro q0 q1
    unfold ldpcDivChecked ldpcDiv safeDiv
    by_cases h : q0 = 0
    · rw [if_pos h, if_pos h]
    · rw [if_neg h, if_neg h, if_neg h]
      rfl
  · intro rlog a
    unfold clampLogChecked clampLog safeLog
    by_cases h1 : a ≥ 999/1000
    · rw [if_pos h1, if_pos h1]
    · rw [if_neg h1, if_neg h1]
      by_cases h2 : a ≤ -(999/1000)
      · rw [if_pos h2, if_pos h2]
      · rw [if_neg h2, if_neg h2]
        have hpos : 0 < (1 + a) / (1 - a) := by
          apply div_pos <;> linarith
        rw [if_neg (by linarith)]
  · intro a h1 h2
    constructor <;> [linarith; linarith]

/-- Witness for C6: the guard facts at the concrete points q0 = 0,
q0 = 1, a = 0. -/
theorem ldpc_numeric_guards_witness :
    ldpcDivChecked 0 1 = some (ldpcDiv 0 1) ∧
    ldpcDivChecked 1 1 = some (ldpcDiv 1 1) ∧
    clampLogChecked (fun _ => 0) 0 = some (clampLog (fun _ => 0) 0) ∧
    (¬((0 : ℚ) ≥ 999/1000) ∧ ¬((0 : ℚ) ≤ -(999/1000)) ∧
      0 < 1 + (0 : ℚ) ∧ 0 < 1 - (0 : ℚ)) := by
  have h := ldpc_numeric_guards_spec
  have h1 : ¬((0 : ℚ) ≥ 999/1000) := by norm_num
  have h2 : ¬((0 : ℚ) ≤ -(999/1000)) := by norm_num
  refine ⟨h.1 0 1, h.1 1 1, h.2.1 (fun _ => 0) 0, h1, h2, ?_, ?_⟩
  · exact (h.2.2 0 h1 h2).1
  · exact (h.2.2 0 h1 h2).2

/-- Claim C7, counterexample: at x = 7 the unsaturated branch of
fast_tanh is taken and the rational polynomial exceeds 0.999, refuting
the claim that the returned value always lies in [-0.999, 0.999]. -/
theorem fast_tanh_bound_cex : 999/1000 < fast_tanh 7 := by
  unfold fast_tanh
  norm_num

/-- Claim C7, amended: fast_tanh saturates to -0.999 below -7.6 and to
0.999 above 7.6 and otherwise returns the 7/6 rational polynomial; the
membership of the result in [-0.999, 0.999] holds on the saturated
region (it fails inside [-7.6, 7.6], see the counterexample). -/
theorem fast_tanh_amended :
    (∀ x : ℚ, x < -(76/10) → fast_tanh x = -(999/1000)) ∧
    (∀ x : ℚ, 76/10 < x → fast_tanh x = 999/1000) ∧
    (∀ x : ℚ, -(76/10) ≤ x → x ≤ 76/10 →
      fast_tanh x =
        x * (135135 + x * x * (17325 + x * x * (378 + x * x))) /
          (135135 + x * x * (62370 + x * x * (3150 + x * x * 28)))) ∧
    (∀ x : ℚ, x < -(76/10) ∨ 76/10 < x →
      -(999/1000) ≤ fast_tanh x ∧ fast_tanh x ≤ 999/1000) := by
  have hlo : ∀ x : ℚ, x < -(76/10) → fast_tanh x = -(999/1000) := by
    intro x hx
    unfold fast_tanh
    rw [if_pos hx]
  have hhi : ∀ x : ℚ, 76/10 < x → fast_tanh x = 999/1000 := by
    intro x hx
    unfold fast_tanh
    rw [if_neg (by linarith), if_pos hx]
  refine ⟨hlo, hhi, ?_, ?_⟩
  · intro x hx1 hx2
    unfold fast_tanh
    rw [if_neg (by linarith), if_neg (by linarith)]
  · intro x hx
    rcases hx with hx | hx
    · rw [hlo x hx]
      norm_num
    · rw [hhi x hx]
      norm_num

/-- Witness for C7: the amended description evaluated at -8, 8 and 0. -/
theorem fast_tanh_amended_witness :
    fast_tanh (-8) = -(999/1000) ∧
    fast_tanh 8 = 999/1000 ∧
    fast_tanh 0 =
      (0 : ℚ) * (135135 + 0 * 0 * (17325 + 0 * 0 * (378 + 0 * 0))) /
        (135135 + 0 * 0 * (62370 + 0 * 0 * (3150 + 0 * 0 * 28))) ∧
    (-(999/1000) ≤ fast_tanh 8 ∧ fast_tanh 8 ≤ 999/1000) := by
  have h := fast_tanh_amended
  exact ⟨h.1 (-8) (by norm_num), h.2.1 8 (by norm_num),
    h.2.2.1 0 (by norm_num) (by norm_num), h.2.2.2 8 (Or.inr (by norm_num))⟩

end GuardClaims

section CrcClaims

theorem getD_drop (l : List ℕ) (n k : ℕ) :
    (l.drop n).getD k 0 = l.getD (n + k) 0 := by
  rw [List.getD_eq_getElem?_getD, List.getD_eq_getElem?_getD,
    List.getElem?_drop]

theorem getD_oob (l : List ℕ) (n : ℕ) (h : l.length ≤ n) :
    l.getD n 0 = 0 := by
  rw [List.getD_eq_getElem?_getD, List.getElem?_eq_none h]
  rfl

theorem getD_set_ne (l : List ℕ) (a i j : ℕ) (h : i ≠ j) :
    (l.set i a).getD j 0 = l.getD j 0 := by
  rw [List.getD_eq_getElem?_getD, List.getElem?_set, if_neg h,
    ← List.getD_eq_getElem?_getD]

theorem getD_set_eq (l : List ℕ) (a i : ℕ) (h : i < l.length) :
    (l.set i a).getD i 0 = a := by
  rw [List.getD_eq_getElem?_getD, List.getElem?_set, if_pos rfl, if_pos h]
  rfl

theorem getD_set_oob (l : List ℕ) (a i : ℕ) (h : ¬i < l.length) :
    (l.set i a).getD i 0 = l.getD i 0 := by
  rw [List.getD_eq_getElem?_getD, List.getElem?_set, if_pos rfl, if_neg h,
    getD_oob l i (by omega)]
  rfl

theorem crcWindow_length (s : List ℕ) (i : ℕ) : ∀ (k : ℕ),
    ((List.range k).foldl (fun s2 j =>
      s2.set (i + j) ((s2.getD (i + j) 0 + crcDivBits.getD j 0) % 2))
      s).length = s.length := by
  intro k
  induction k with
  | zero => rfl
  | succ k ih =>
    rw [List.range_succ, List.foldl_append, List.foldl_cons, List.foldl_nil,
      List.length_set, ih]

theorem crcWindow_getD (s : List ℕ) (i : ℕ) : ∀ (k : ℕ) (p : ℕ),
    ((List.range k).foldl (fun s2 j =>
      s2.set (i + j) ((s2.getD (i + j) 0 + crcDivBits.getD j 0) % 2))
      s).getD p 0 =
    if i ≤ p ∧ p < i + k ∧ p < s.length
    then (s.getD p 0 + crcDivBits.getD (p - i) 0) % 2
    else s.getD p 0 := by
  intro k
  induction k with
  | zero =>
    intro p
    rw [if_neg (by omega)]
    rfl
  | succ k ih =>
    intro p
    rw [List.range_succ, List.foldl_append, List.foldl_cons, List.foldl_nil]
    by_cases hp : i + k = p
    · subst hp
      by_cases hlen : i + k < s.length
      · rw [getD_set_eq _ _ _ (by rw [crcWindow_length]; exact hlen)]
        rw [ih (i + k), if_neg (by omega), if_pos (by omega),
          show i + k - i = k from by omega]
      · rw [getD_set_oob _ _ _ (by rw [crcWindow_length]; exact hlen)]
        rw [ih (i + k), if_neg (by omega), if_neg (by omega)]
    · rw [getD_set_ne _ _ _ _ hp, ih p]
      by_cases hin : i ≤ p ∧ p < i + k ∧ p < s.length
      · rw [if_pos hin, if_pos (by omega)]
      · rw [if_neg hin, if_neg (by omega)]

theorem crcStep_length (s : List ℕ) (i : ℕ) :
    (crcStep s i).length = s.length := by
  unfold crcStep
  by_cases h : s.getD i 0 ≠ 0
  · rw [if_pos h, crcWindow_length]
  · rw [if_neg h]

theorem crcStep_getD (s : List ℕ) (i p : ℕ) :
    (crcStep s i).getD p 0 =
      if s.getD i 0 ≠ 0 ∧ i ≤ p ∧ p < i + 15 ∧ p < s.length
      then (s.getD p 0 + crcDivBits.getD (p - i) 0) % 2
      else s.getD p 0 := by
  unfold crcStep
  by_cases h : s.getD i 0 ≠ 0
  · rw [if_pos h, crcWindow_getD]
    by_cases hin : i ≤ p ∧ p < i + 15 ∧ p < s.length
    · rw [if_pos hin, if_pos ⟨h, hin⟩]
    · rw [if_neg hin, if_neg (by tauto)]
  · rw [if_neg h, if_neg (by tauto)]

theorem crcReduce_zero (s : List ℕ) : crcReduce s 0 = s := rfl

theorem crcReduce_succ (s : List ℕ) (t : ℕ) :
    crcReduce s (t + 1) = crcStep (crcReduce s t) t := by
  unfold crcReduce
  rw [List.range_succ, List.foldl_append, List.foldl_cons, List.foldl_nil]

theorem crcReduce_length (s : List ℕ) : ∀ t,
    (crcReduce s t).length = s.length := by
  intro t
  induction t with
  | zero => rfl
  | succ t ih => rw [crcReduce_succ, crcStep_length, ih]


theorem crcReduce_prefix_eq (U V : List ℕ) (n : ℕ)
    (hlen : U.length = V.length)
    (hagree : ∀ p, p < n → U.getD p 0 = V.getD p 0) :
    ∀ t, t ≤ n → ∀ p, p < n →
      (crcReduce U t).getD p 0 = (crcReduce V t).getD p 0 := by
  intro t
  induction t with
  | zero => intro _ p hp; exact hagree p hp
  | succ t ih =>
    intro ht p hp
    rw [crcReduce_succ, crcReduce_succ, crcStep_getD, crcStep_getD]
    have hfire : (crcReduce U t).getD t 0 = (crcReduce V t).getD t 0 :=
      ih (by omega) t (by omega)
    have hlen2 : (crcReduce U t).length = (crcReduce V t).length := by
      rw [crcReduce_length, crcReduce_length, hlen]
    have hval : (crcReduce U t).getD p 0 = (crcReduce V t).getD p 0 :=
      ih (by omega) p hp
    rw [hfire, hval, hlen2]

theorem crcReduce_appendix_mod (U V : List ℕ) (n : ℕ) (out : ℕ → ℕ)
    (hlen : U.length = V.length)
    (hagree : ∀ p, p < n → U.getD p 0 = V.getD p 0)
    (hbase : ∀ k, (V.getD (n + k) 0) % 2 = (U.getD (n + k) 0 + out k) % 2) :
    ∀ t, t ≤ n → ∀ k,
      ((crcReduce V t).getD (n + k) 0) % 2 =
        ((crcReduce U t).getD (n + k) 0 + out k) % 2 := by
  intro t
  induction t with
  | zero => intro _ k; exact hbase k
  | succ t ih =>
    intro ht k
    rw [crcReduce_succ, crcReduce_succ, crcStep_getD, crcStep_getD]
    have hfire : (crcReduce U t).getD t 0 = (crcReduce V t).getD t 0 :=
      crcReduce_prefix_eq U V n hlen hagree t (by omega) t (by omega)
    have hlen2 : (crcReduce V t).length = (crcReduce U t).length := by
      rw [crcReduce_length, crcReduce_length, hlen]
    have hih := ih (by omega) k
    rw [hfire, hlen2]
    by_cases hcond : (crcReduce V t).getD t 0 ≠ 0 ∧ t ≤ n + k ∧
        n + k < t + 15 ∧ n + k < (crcReduce U t).length
    · rw [if_pos hcond, if_pos hcond]
      omega
    · rw [if_neg hcond, if_neg hcond]
      exact hih

theorem crcReduce_bounded (s : List ℕ) : ∀ t p,
    (crcReduce s t).getD p 0 ≤ 1 ∨ (crcReduce s t).getD p 0 = s.getD p 0 := by
  intro t
  induction t with
  | zero => intro p; right; rfl
  | succ t ih =>
    intro p
    rw [crcReduce_succ, crcStep_getD]
    by_cases hcond : (crcReduce s t).getD t 0 ≠ 0 ∧ t ≤ p ∧ p < t + 15 ∧
        p < (crcReduce s t).length
    · rw [if_pos hcond]
      left
      omega
    · rw [if_neg hcond]
      exact ih p


theorem getD_take (l : List ℕ) (m k : ℕ) (h : k < m) :
    (l.take m).getD k 0 = l.getD k 0 := by
  rw [List.getD_eq_getElem?_getD, List.getD_eq_getElem?_getD,
    List.getElem?_take, if_pos h]

theorem getD_replicate_zero (k m : ℕ) :
    (List.replicate m (0 : ℕ)).getD k 0 = 0 := by
  rw [List.getD_eq_getElem?_getD, List.getElem?_replicate]
  by_cases h : k < m
  · rw [if_pos h]
    rfl
  · rw [if_neg h]
    rfl

theorem ft8_crc_length (msg1 : List ℕ) : (ft8_crc msg1).length = 14 := by
  unfold ft8_crc
  rw [List.length_take, List.length_drop, crcReduce_length,
    List.length_append, List.length_replicate]
  omega

theorem ft8_crc_getD (msg1 : List ℕ) (k : ℕ) (hk : k < 14) :
    (ft8_crc msg1).getD k 0 =
      (crcReduce (msg1 ++ List.replicate 14 0) msg1.length).getD
        (msg1.length + k) 0 := by
  unfold ft8_crc
  rw [getD_take _ _ _ hk, getD_drop]

theorem ft8_crc_getD_le (msg1 : List ℕ) (k : ℕ) :
    (ft8_crc msg1).getD k 0 ≤ 1 := by
  by_cases hk : k < 14
  · rw [ft8_crc_getD msg1 k hk]
    rcases crcReduce_bounded (msg1 ++ List.replicate 14 0) msg1.length
      (msg1.length + k) with h | h
    · exact h
    · rw [h, List.getD_append_right _ _ _ _ (by omega),
        show msg1.length + k - msg1.length = k from by omega,
        getD_replicate_zero]
      omega
  · rw [getD_oob _ _ (by rw [ft8_crc_length]; omega)]
    omega

/-- Claim C5: dividing the concatenation of any message with its CRC-14
by the 0x2757 generator, with the very reduction loop of the code,
leaves the zero remainder. -/
theorem ft8_crc_roundtrip_spec (msg1 : List ℕ) :
    polyRemainder (msg1 ++ ft8_crc msg1) = List.replicate 14 0 := by
  have hout_len : (ft8_crc msg1).length = 14 := ft8_crc_length msg1
  have hbits_len : (msg1 ++ ft8_crc msg1).length = msg1.length + 14 := by
    rw [List.length_append, hout_len]
  have hXlen : (msg1 ++ List.replicate 14 0).length = msg1.length + 14 := by
    rw [List.length_append, List.length_replicate]
  have hsub : (msg1 ++ ft8_crc msg1).length - 14 = msg1.length := by omega
  have hBlen : (crcReduce (msg1 ++ ft8_crc msg1) msg1.length).length =
      msg1.length + 14 := by rw [crcReduce_length, hbits_len]
  have hkey : ∀ m, m < 14 →
      (crcReduce (msg1 ++ ft8_crc msg1) msg1.length).getD
        (msg1.length + m) 0 = 0 := by
    intro m hm
    have hagree : ∀ p, p < msg1.length →
        (msg1 ++ List.replicate 14 0).getD p 0 =
          (msg1 ++ ft8_crc msg1).getD p 0 := by
      intro p hp
      rw [List.getD_append _ _ _ _ hp, List.getD_append _ _ _ _ hp]
    have hbase : ∀ k,
        ((msg1 ++ ft8_crc msg1).getD (msg1.length + k) 0) % 2 =
          ((msg1 ++ List.replicate 14 0).getD (msg1.length + k) 0 +
            (ft8_crc msg1).getD k 0) % 2 := by
      intro k
      rw [List.getD_append_right _ _ _ _ (by omega),
        List.getD_append_right _ _ _ _ (by omega),
        show msg1.length + k - msg1.length = k from by omega,
        getD_replicate_zero]
      omega
    have hmod := crcReduce_appendix_mod (msg1 ++ List.replicate 14 0)
      (msg1 ++ ft8_crc msg1) msg1.length (fun k => (ft8_crc msg1).getD k 0)
      (by rw [hXlen, hbits_len]) hagree hbase msg1.length (le_refl _) m
    have hAval : (crcReduce (msg1 ++ List.replicate 14 0) msg1.length).getD
        (msg1.length + m) 0 = (ft8_crc msg1).getD m 0 :=
      (ft8_crc_getD msg1 m hm).symm
    rw [hAval] at hmod
    have hboundB : (crcReduce (msg1 ++ ft8_crc msg1) msg1.length).getD
        (msg1.length + m) 0 ≤ 1 := by
      rcases crcReduce_bounded (msg1 ++ ft8_crc msg1) msg1.length
        (msg1.length + m) with h | h
      · exact h
      · rw [h, List.getD_append_right _ _ _ _ (by omega),
          show msg1.length + m - msg1.length = m from by omega]
        exact ft8_crc_getD_le msg1 m
    omega
  unfold polyRemainder
  rw [hsub]
  apply List.ext_getElem
  · rw [List.length_take, List.length_drop, hBlen, List.length_replicate]
    omega
  · intro m h1 h2
    have hm : m < 14 := by
      rw [List.length_replicate] at h2
      exact h2
    rw [List.getElem_take, List.getElem_drop, List.getElem_replicate]
    have := hkey m hm
    rw [List.getD_eq_getElem _ 0 (by omega)] at this
    exact this

end CrcClaims

set_option maxRecDepth 200000 in
/-- Claim C9, counterexample: ft8_crc of the message with a single 1 in
position 0 followed by 76 zeros does not yield the bits claimed by the
spec. -/
theorem ft8_crc_single_one_cex :
    ft8_crc ((1 : ℕ) :: List.replicate 76 0) ≠
      [0, 0, 1, 0, 0, 1, 1, 1, 0, 1, 0, 1, 1, 1] := by
  decide

set_option maxRecDepth 200000 in
/-- Claim C9, amended: ft8_crc of the message with a single 1 in
position 0 followed by 76 zeros yields the remainder of x to the 90th
power modulo the generator, namely [0,1,1,0,0,0,1,0,0,0,1,0,1,0]. -/
theorem ft8_crc_single_one_amended :
    ft8_crc ((1 : ℕ) :: List.replicate 76 0) =
      [0, 1, 1, 0, 0, 0, 1, 0, 0, 0, 1, 0, 1, 0] := by
  decide

end FT8
namespace FT8

theorem gjEliminate_fold (m : ℕ → ℕ → ZMod 2) (row : ℕ) : ∀ (t : ℕ),
    (List.range t).foldl (fun acc row1 =>
      if row1 = row then acc
      else if acc row1 row ≠ 0 then
        fun r c => if r = row1 then acc r c + acc row c else acc r c
      else acc) m =
    fun r c => if r < t ∧ r ≠ row ∧ m r row ≠ 0 then m r c + m row c
      else m r c := by
  intro t
  induction t with
  | zero =>
    funext r c
    rw [if_neg (fun h => absurd h.1 (Nat.not_lt_zero r))]
    rfl
  | succ t ih =>
    rw [List.range_succ, List.foldl_append, List.foldl_cons, List.foldl_nil,
      ih]
    beta_reduce
    by_cases ht : t = row
    · rw [if_pos ht]
      funext r c
      by_cases hr : r < t ∧ r ≠ row ∧ m r row ≠ 0
      · rw [if_pos hr, if_pos ⟨by omega, hr.2.1, hr.2.2⟩]
      · rw [if_neg hr, if_neg (by
          subst ht
          intro hc
          rcases hc with ⟨h1, h2, h3⟩
          exact hr ⟨by omega, h2, h3⟩)]
    · rw [if_neg ht]
      have hread : (if t < t ∧ t ≠ row ∧ m t row ≠ 0 then m t row + m row row
          else m t row) = m t row := by
        rw [if_neg (by omega)]
      rw [hread]
      by_cases hfire : m t row ≠ 0
      · rw [if_pos hfire]
        funext r c
        by_cases hrt : r = t
        · subst hrt
          rw [if_pos rfl]
          rw [if_neg (fun h => absurd h.1 (by omega)),
            if_neg (fun h => h.2.1 rfl),
            if_pos ⟨by omega, ht, hfire⟩]
        · rw [if_neg hrt]
          by_cases hr : r < t ∧ r ≠ row ∧ m r row ≠ 0
          · rw [if_pos hr, if_pos ⟨by omega, hr.2.1, hr.2.2⟩]
          · rw [if_neg hr, if_neg (by
              intro hc
              rcases hc with ⟨h1, h2, h3⟩
              exact hr ⟨by omega, h2, h3⟩)]
      · rw [if_neg hfire]
        funext r c
        by_cases hr : r < t ∧ r ≠ row ∧ m r row ≠ 0
        · rw [if_pos hr, if_pos ⟨by omega, hr.2.1, hr.2.2⟩]
        · rw [if_neg hr, if_neg (by
            intro hc
            rcases hc with ⟨h1, h2, h3⟩
            rcases Nat.lt_succ_iff_lt_or_eq.mp h1 with h4 | h4
            · exact hr ⟨h4, h2, h3⟩
            · subst h4
              exact hfire h3)]

theorem gjEliminate_apply (m : ℕ → ℕ → ZMod 2) (row r c : ℕ) :
    gjEliminate m row r c =
      if r < 174 ∧ r ≠ row ∧ m r row ≠ 0 then m r c + m row c
      else m r c := by
  unfold gjEliminate
  rw [gjEliminate_fold]

end FT8
namespace FT8

theorem zmod2_ne_zero_eq_one (x : ZMod 2) (h : x ≠ 0) : x = 1 := by
  revert h
  revert x
  decide

theorem zmod2_ne_one_eq_zero (x : ZMod 2) (h : x ≠ 1) : x = 0 := by
  revert h
  revert x
  decide

theorem zmod2_add_self (x : ZMod 2) : x + x = 0 := by
  revert x
  decide

theorem gjInv_swap (M0 : ℕ → ℕ → ZMod 2) (r ρ : ℕ)
    (st : (ℕ → ℕ → ZMod 2) × (ℕ → ℕ)) (hInv : gjInv M0 r st) (hr91 : r < 91)
    (hlt : r < ρ) (hρ : ρ < 174) :
    gjInv M0 r (gjSwapRows st.1 r ρ, rowSwap st.2 r ρ) := by
  obtain ⟨hA, hB, hC⟩ := hInv
  have hswap_sum : ∀ (a' : ℕ), a' < 174 → ∀ b,
      (∑ k ∈ Finset.range 91,
        st.1 a' (91 + k) * M0 (rowSwap st.2 r ρ k) b) =
      ∑ k ∈ Finset.range 91, st.1 a' (91 + k) * M0 (st.2 k) b := by
    intro a' ha' b
    apply Finset.sum_congr rfl
    intro k hk
    by_cases hkr : k = r
    · subst hkr
      rw [hB a' k ha' (le_refl k) hr91, zero_mul, zero_mul]
    · by_cases hkρ : k = ρ
      · subst hkρ
        rw [hB a' k ha' (le_of_lt hlt) (Finset.mem_range.mp hk),
          zero_mul, zero_mul]
      · unfold rowSwap
        rw [if_neg hkr, if_neg hkρ]
  have hrow : ∀ (a : ℕ), gjSwapRows st.1 r ρ a =
      st.1 (if a = r then ρ else if a = ρ then r else a) := by
    intro a
    funext c
    unfold gjSwapRows
    by_cases h1 : a = r
    · rw [if_pos h1, if_pos h1]
    · rw [if_neg h1, if_neg h1]
      by_cases h2 : a = ρ
      · rw [if_pos h2, if_pos h2]
      · rw [if_neg h2, if_neg h2]
  refine ⟨?_, ?_, ?_⟩
  · intro a b ha hb
    show gjSwapRows st.1 r ρ a b = if a = b then 1 else 0
    rw [hrow a]
    by_cases h1 : a = r
    · rw [if_pos h1]
      rw [hA ρ b hρ hb]
      subst h1
      rw [if_neg (by omega), if_neg (by omega)]
    · rw [if_neg h1]
      by_cases h2 : a = ρ
      · rw [if_pos h2]
        rw [hA r b (by omega) hb]
        subst h2
        rw [if_neg (by omega), if_neg (by omega)]
      · rw [if_neg h2]
        exact hA a b ha hb
  · intro a k ha hk hk91
    show gjSwapRows st.1 r ρ a (91 + k) = 0
    rw [hrow a]
    by_cases h1 : a = r
    · rw [if_pos h1]
      exact hB ρ k hρ hk hk91
    · rw [if_neg h1]
      by_cases h2 : a = ρ
      · rw [if_pos h2]
        exact hB r k (by omega) hk hk91
      · rw [if_neg h2]
        exact hB a k ha hk hk91
  · intro a b ha hb
    show gjSwapRows st.1 r ρ a b =
      (if a < r then 0 else M0 (rowSwap st.2 r ρ a) b) +
        ∑ k ∈ Finset.range 91,
          gjSwapRows st.1 r ρ a (91 + k) * M0 (rowSwap st.2 r ρ k) b
    by_cases h1 : a = r
    · subst h1
      have hval : ∀ c, gjSwapRows st.1 a ρ a c = st.1 ρ c := fun c => by
        unfold gjSwapRows
        rw [if_pos rfl]
      have hsum1 : ∑ k ∈ Finset.range 91,
          gjSwapRows st.1 a ρ a (91 + k) * M0 (rowSwap st.2 a ρ k) b =
          ∑ k ∈ Finset.range 91, st.1 ρ (91 + k) * M0 (rowSwap st.2 a ρ k) b :=
        Finset.sum_congr rfl (fun k _ => by rw [hval])
      have hwv : rowSwap st.2 a ρ a = st.2 ρ := by
        unfold rowSwap
        rw [if_pos rfl]
      rw [hval b, hsum1, hswap_sum ρ hρ b, if_neg (by omega), hwv]
      have hcρ := hC ρ b hρ hb
      rw [if_neg (by omega)] at hcρ
      exact hcρ
    · by_cases h2 : a = ρ
      · subst h2
        have hval : ∀ c, gjSwapRows st.1 r a a c = st.1 r c := fun c => by
          unfold gjSwapRows
          rw [if_neg h1, if_pos rfl]
        have hsum1 : ∑ k ∈ Finset.range 91,
            gjSwapRows st.1 r a a (91 + k) * M0 (rowSwap st.2 r a k) b =
            ∑ k ∈ Finset.range 91,
              st.1 r (91 + k) * M0 (rowSwap st.2 r a k) b :=
          Finset.sum_congr rfl (fun k _ => by rw [hval])
        have hwv : rowSwap st.2 r a a = st.2 r := by
          unfold rowSwap
          rw [if_neg h1, if_pos rfl]
        rw [hval b, hsum1, hswap_sum r (by omega) b, if_neg (by omega), hwv]
        have hcr := hC r b (by omega) hb
        rw [if_neg (by omega)] at hcr
        exact hcr
      · have hval : ∀ c, gjSwapRows st.1 r ρ a c = st.1 a c := fun c => by
          unfold gjSwapRows
          rw [if_neg h1, if_neg h2]
        have hsum1 : ∑ k ∈ Finset.range 91,
            gjSwapRows st.1 r ρ a (91 + k) * M0 (rowSwap st.2 r ρ k) b =
            ∑ k ∈ Finset.range 91,
              st.1 a (91 + k) * M0 (rowSwap st.2 r ρ k) b :=
          Finset.sum_congr rfl (fun k _ => by rw [hval])
        have hwv : rowSwap st.2 r ρ a = st.2 a := by
          unfold rowSwap
          rw [if_neg h1, if_neg h2]
        rw [hval b, hsum1, hswap_sum a ha b, hwv]
        exact hC a b ha hb

end FT8
namespace FT8

theorem gjInv_elim (M0 : ℕ → ℕ → ZMod 2) (r : ℕ)
    (st1 : (ℕ → ℕ → ZMod 2) × (ℕ → ℕ)) (hInv : gjInv M0 r st1) (hr : r < 91)
    (hpiv : st1.1 r r = 1) :
    gjInv M0 (r + 1)
      (gjEliminate
        (fun x c => if x = r ∧ c = 91 + r then st1.1 x c + 1 else st1.1 x c)
        r, st1.2) := by
  obtain ⟨hA, hB, hC⟩ := hInv
  set M := st1.1 with hM
  set w := st1.2 with hw
  set mt := fun x c => if x = r ∧ c = 91 + r then M x c + 1 else M x c
    with hmtdef
  have hmt_colr : ∀ x, mt x r = M x r := by
    intro x
    show (if x = r ∧ r = 91 + r then M x r + 1 else M x r) = M x r
    rw [if_neg (fun h => absurd h.2 (by omega))]
  have hmt_left : ∀ x c, c < 91 → mt x c = M x c := by
    intro x c hc
    show (if x = r ∧ c = 91 + r then M x c + 1 else M x c) = M x c
    rw [if_neg (fun h => absurd h.2 (by omega))]
  have hmt_right_ne : ∀ x k, k ≠ r → mt x (91 + k) = M x (91 + k) := by
    intro x k hk
    show (if x = r ∧ 91 + k = 91 + r then M x (91 + k) + 1 else M x (91 + k))
      = M x (91 + k)
    rw [if_neg (fun h => absurd h.2 (by omega))]
  have hmt_row_ne : ∀ x c, x ≠ r → mt x c = M x c := by
    intro x c hx
    show (if x = r ∧ c = 91 + r then M x c + 1 else M x c) = M x c
    rw [if_neg (fun h => absurd h.1 hx)]
  have hmt_rr : mt r (91 + r) = 1 := by
    show (if r = r ∧ 91 + r = 91 + r then M r (91 + r) + 1 else M r (91 + r))
      = 1
    rw [if_pos ⟨rfl, rfl⟩, hB r r (by omega) (le_refl r) hr, zero_add]
  have hC' : ∀ a b, a < 174 → b < 91 →
      mt a b = (if a < r + 1 then 0 else M0 (w a) b) +
        ∑ k ∈ Finset.range 91, mt a (91 + k) * M0 (w k) b := by
    intro a b ha hb
    by_cases har : a = r
    · subst har
      rw [hmt_left a b hb, if_pos (by omega), zero_add]
      have hsplit := Finset.sum_erase_add (Finset.range 91)
        (fun k => mt a (91 + k) * M0 (w k) b) (Finset.mem_range.mpr hr)
      rw [← hsplit]
      beta_reduce
      have herase : ∑ k ∈ (Finset.range 91).erase a,
          mt a (91 + k) * M0 (w k) b =
          ∑ k ∈ (Finset.range 91).erase a, M a (91 + k) * M0 (w k) b :=
        Finset.sum_congr rfl (fun k hk => by
          rw [hmt_right_ne a k (Finset.mem_erase.mp hk).1])
      rw [herase, hmt_rr, one_mul]
      have hsplit2 := Finset.sum_erase_add (Finset.range 91)
        (fun k => M a (91 + k) * M0 (w k) b) (Finset.mem_range.mpr hr)
      have hCa := hC a b ha hb
      rw [if_neg (by omega), ← hsplit2] at hCa
      beta_reduce at hCa
      rw [hB a a (by omega) (le_refl a) hr, zero_mul, add_zero] at hCa
      rw [hCa]
      ring
    · rw [hmt_row_ne a b har]
      have hphase : (if a < r + 1 then (0 : ZMod 2) else M0 (w a) b) =
          if a < r then 0 else M0 (w a) b := by
        by_cases h : a < r
        · rw [if_pos h, if_pos (by omega)]
        · rw [if_neg h, if_neg (by omega)]
      rw [hphase]
      have hsum : ∑ k ∈ Finset.range 91, mt a (91 + k) * M0 (w k) b =
          ∑ k ∈ Finset.range 91, M a (91 + k) * M0 (w k) b :=
        Finset.sum_congr rfl (fun k _ => by rw [hmt_row_ne a (91 + k) har])
      rw [hsum]
      exact hC a b ha hb
  refine ⟨?_, ?_, ?_⟩
  · intro a b ha hb
    show gjEliminate mt r a b = if a = b then 1 else 0
    rw [gjEliminate_apply]
    have hbl : b < 91 := by omega
    by_cases hfired : a < 174 ∧ a ≠ r ∧ mt a r ≠ 0
    · rw [if_pos hfired]
      rw [hmt_left a b hbl, hmt_left r b hbl]
      by_cases hbr : b = r
      · have hMar : M a r = 1 := zmod2_ne_zero_eq_one _ (by
          have h3 := hfired.2.2
          rwa [hmt_colr a] at h3)
        rw [hbr, hMar, hpiv, if_neg (show ¬a = r from hfired.2.1)]
        decide
      · have hbr2 : b < r := by omega
        rw [hA a b ha hbr2, hA r b (by omega) hbr2,
          if_neg (show ¬r = b from fun h => hbr h.symm), add_zero]
    · rw [if_neg hfired]
      rw [hmt_left a b hbl]
      by_cases hbr : b = r
      · rw [hbr]
        by_cases har : a = r
        · rw [if_pos har, har]
          exact hpiv
        · rw [if_neg har]
          have hz : M a r = 0 := by
            by_contra hnz
            exact hfired ⟨ha, har, by
              rw [hmt_colr a]
              exact hnz⟩
          exact hz
      · exact hA a b ha (by omega)
  · intro a k ha hk hk91
    show gjEliminate mt r a (91 + k) = 0
    rw [gjEliminate_apply]
    have h1 : mt a (91 + k) = M a (91 + k) := hmt_right_ne a k (by omega)
    have h2 : mt r (91 + k) = M r (91 + k) := hmt_right_ne r k (by omega)
    have hz1 : M a (91 + k) = 0 := hB a k ha (by omega) hk91
    have hz2 : M r (91 + k) = 0 := hB r k (by omega) (by omega) hk91
    by_cases hfired : a < 174 ∧ a ≠ r ∧ mt a r ≠ 0
    · rw [if_pos hfired, h1, h2, hz1, hz2, add_zero]
    · rw [if_neg hfired, h1, hz1]
  · intro a b ha hb
    show gjEliminate mt r a b =
      (if a < r + 1 then 0 else M0 (w a) b) +
        ∑ k ∈ Finset.range 91, gjEliminate mt r a (91 + k) * M0 (w k) b
    by_cases hfired : a < 174 ∧ a ≠ r ∧ mt a r ≠ 0
    · have hmec : ∀ c, gjEliminate mt r a c = mt a c + mt r c := fun c => by
        rw [gjEliminate_apply, if_pos hfired]
      rw [hmec b]
      have hsum : ∑ k ∈ Finset.range 91,
          gjEliminate mt r a (91 + k) * M0 (w k) b =
          (∑ k ∈ Finset.range 91, mt a (91 + k) * M0 (w k) b) +
            ∑ k ∈ Finset.range 91, mt r (91 + k) * M0 (w k) b := by
        rw [← Finset.sum_add_distrib]
        exact Finset.sum_congr rfl (fun k _ => by rw [hmec (91 + k), add_mul])
      rw [hsum]
      have hCa := hC' a b ha hb
      have hCr := hC' r b (by omega) hb
      rw [if_pos (by omega), zero_add] at hCr
      rw [hCa, hCr]
      ring
    · have hmec : ∀ c, gjEliminate mt r a c = mt a c := fun c => by
        rw [gjEliminate_apply, if_neg hfired]
      rw [hmec b]
      have hsum : ∑ k ∈ Finset.range 91,
          gjEliminate mt r a (91 + k) * M0 (w k) b =
          ∑ k ∈ Finset.range 91, mt a (91 + k) * M0 (w k) b :=
        Finset.sum_congr rfl (fun k _ => by rw [hmec (91 + k)])
      rw [hsum]
      exact hC' a b ha hb

end FT8
namespace FT8

theorem gjLoop_zero (r : ℕ) (st : (ℕ → ℕ → ZMod 2) × (ℕ → ℕ)) :
    gjLoop r 0 st = some st := rfl

theorem gjLoop_succ (r n : ℕ) (st : (ℕ → ℕ → ZMod 2) × (ℕ → ℕ)) :
    gjLoop r (n + 1) st = (gjStep st r).bind (gjLoop (r + 1) n) := rfl

theorem gjLoop_append (m n : ℕ) : ∀ (r : ℕ)
    (st : (ℕ → ℕ → ZMod 2) × (ℕ → ℕ)),
    gjLoop r (m + n) st = (gjLoop r m st).bind (gjLoop (r + m) n) := by
  induction m with
  | zero =>
    intro r st
    rw [Nat.zero_add, gjLoop_zero, Nat.add_zero]
    rfl
  | succ m ih =>
    intro r st
    have h1 : m + 1 + n = (m + n) + 1 := by omega
    rw [h1, gjLoop_succ, gjLoop_succ]
    cases hst : gjStep st r with
    | none => rfl
    | some st1 =>
      show gjLoop (r + 1) (m + n) st1 =
        (gjLoop (r + 1) m st1).bind (gjLoop (r + (m + 1)) n)
      rw [ih (r + 1) st1]
      have h2 : r + 1 + m = r + (m + 1) := by omega
      rw [h2]

theorem gjStep_pivot_one (st : (ℕ → ℕ → ZMod 2) × (ℕ → ℕ)) (row : ℕ)
    (h : st.1 row row = 1) :
    gjStep st row =
      some (gjEliminate
        (fun r c => if r = row ∧ c = 91 + row then st.1 r c + 1 else st.1 r c)
        row, st.2) := by
  unfold gjStep
  rw [if_neg (fun hne => hne h)]
  unfold gjStep2
  rw [if_pos h]

theorem gjStep_none (st : (ℕ → ℕ → ZMod 2) × (ℕ → ℕ)) (row : ℕ)
    (hrow : row < 91) (hz : ∀ a, row ≤ a → a < 174 → st.1 a row = 0) :
    gjStep st row = none := by
  have hfind : gjFindPivot st.1 row = none := by
    unfold gjFindPivot
    apply List.find?_eq_none.mpr
    intro ρ hmem
    rw [List.mem_range'_1] at hmem
    simp only [decide_eq_true_eq]
    rw [hz ρ (by omega) (by omega)]
    decide
  have hne : st.1 row row ≠ 1 := by
    rw [hz row (le_refl row) (by omega)]
    decide
  unfold gjStep
  rw [if_pos hne, hfind]
  show gjStep2 st row = none
  unfold gjStep2
  rw [if_neg hne]

theorem gjStep2_inv (M0 : ℕ → ℕ → ZMod 2) (r : ℕ)
    (st1 st2 : (ℕ → ℕ → ZMod 2) × (ℕ → ℕ)) (hInv1 : gjInv M0 r st1)
    (hr : r < 91) (hstep : gjStep2 st1 r = some st2) :
    gjInv M0 (r + 1) st2 := by
  unfold gjStep2 at hstep
  by_cases hpiv : st1.1 r r = 1
  · rw [if_pos hpiv] at hstep
    have h := gjInv_elim M0 r st1 hInv1 hr hpiv
    rw [← Option.some_inj.mp hstep]
    exact h
  · rw [if_neg hpiv] at hstep
    exact Option.noConfusion hstep

theorem gjStep_inv (M0 : ℕ → ℕ → ZMod 2) (r : ℕ)
    (st st2 : (ℕ → ℕ → ZMod 2) × (ℕ → ℕ)) (hInv : gjInv M0 r st)
    (hr : r < 91) (hstep : gjStep st r = some st2) :
    gjInv M0 (r + 1) st2 := by
  unfold gjStep at hstep
  refine gjStep2_inv M0 r _ st2 ?_ hr hstep
  by_cases h1 : st.1 r r = 1
  · rw [if_neg (fun hne => hne h1)]
    exact hInv
  · rw [if_pos h1]
    cases hfind : gjFindPivot st.1 r with
    | none => exact hInv
    | some ρ =>
      unfold gjFindPivot at hfind
      have hmem := List.mem_of_find?_eq_some hfind
      rw [List.mem_range'_1] at hmem
      obtain ⟨hm1, hm2⟩ := hmem
      show gjInv M0 r (gjSwapRows st.1 r ρ, rowSwap st.2 r ρ)
      exact gjInv_swap M0 r ρ st hInv hr (by omega) (by omega)

theorem gjLoop_inv (M0 : ℕ → ℕ → ZMod 2) (n : ℕ) : ∀ (r : ℕ)
    (st st2 : (ℕ → ℕ → ZMod 2) × (ℕ → ℕ)), gjInv M0 r st → r + n ≤ 91 →
    gjLoop r n st = some st2 → gjInv M0 (r + n) st2 := by
  induction n with
  | zero =>
    intro r st st2 hInv _ hloop
    have h := Option.some_inj.mp hloop
    rw [Nat.add_zero, ← h]
    exact hInv
  | succ n ih =>
    intro r st st2 hInv hle hloop
    rw [gjLoop_succ] at hloop
    cases hst : gjStep st r with
    | none =>
      rw [hst] at hloop
      exact Option.noConfusion hloop
    | some st1 =>
      rw [hst] at hloop
      have hInv1 : gjInv M0 (r + 1) st1 :=
        gjStep_inv M0 r st st1 hInv (by omega) hst
      have h := ih (r + 1) st1 st2 hInv1 (by omega) hloop
      rw [show r + (n + 1) = r + 1 + n by omega]
      exact h

theorem gjInv_init (L : ℕ → ℕ → ZMod 2) :
    gjInv L 0 (gjAugment L, fun a => a) := by
  refine ⟨?_, ?_, ?_⟩
  · intro a b _ hb
    exact absurd hb (by omega)
  · intro a k _ _ _
    show gjAugment L a (91 + k) = 0
    unfold gjAugment
    rw [if_neg (by omega)]
  · intro a b _ hb
    show gjAugment L a b = (if a < 0 then 0 else L a b) +
      ∑ k ∈ Finset.range 91, gjAugment L a (91 + k) * L k b
    rw [if_neg (by omega)]
    have hz : ∀ k ∈ Finset.range 91, gjAugment L a (91 + k) * L k b = 0 := by
      intro k _
      unfold gjAugment
      rw [if_neg (by omega), zero_mul]
    rw [Finset.sum_congr rfl hz, Finset.sum_const_zero, add_zero]
    unfold gjAugment
    rw [if_pos hb]

end FT8
namespace FT8

theorem gjIdPartial_diag (k : ℕ) (hk : k < 91) : gjIdPartial k k k = 1 := by
  unfold gjIdPartial
  rw [if_pos hk, if_pos rfl]

theorem gjIdStep (k : ℕ) (hk : k < 91) :
    gjStep (gjIdPartial k, fun a : ℕ => a) k =
      some (gjIdPartial (k + 1), fun a : ℕ => a) := by
  have h1 : (gjIdPartial k, fun a : ℕ => a).1 k k = 1 := gjIdPartial_diag k hk
  rw [gjStep_pivot_one _ _ h1]
  have hmt : (fun r c => if r = k ∧ c = 91 + k then
      (gjIdPartial k, fun a : ℕ => a).1 r c + 1
      else (gjIdPartial k, fun a : ℕ => a).1 r c) = gjIdPartial (k + 1) := by
    funext r c
    show (if r = k ∧ c = 91 + k then gjIdPartial k r c + 1
      else gjIdPartial k r c) = gjIdPartial (k + 1) r c
    unfold gjIdPartial
    by_cases h : r = k ∧ c = 91 + k
    · obtain ⟨rfl, rfl⟩ := h
      rw [if_pos ⟨rfl, rfl⟩, if_neg (by omega), if_neg (by omega),
        if_neg (by omega), if_pos ⟨by omega, rfl⟩, zero_add]
    · rw [if_neg h]
      by_cases hc : c < 91
      · rw [if_pos hc, if_pos hc]
      · rw [if_neg hc, if_neg hc]
        by_cases h2 : r < k ∧ c = 91 + r
        · rw [if_pos h2, if_pos ⟨by omega, h2.2⟩]
        · rw [if_neg h2, if_neg (by omega)]
  have helim : gjEliminate (fun r c => if r = k ∧ c = 91 + k then
      (gjIdPartial k, fun a : ℕ => a).1 r c + 1
      else (gjIdPartial k, fun a : ℕ => a).1 r c) k = gjIdPartial (k + 1) := by
    rw [hmt]
    funext r c
    rw [gjEliminate_apply]
    have hnf : ¬(r < 174 ∧ r ≠ k ∧ gjIdPartial (k + 1) r k ≠ 0) := by
      intro hcon
      apply hcon.2.2
      unfold gjIdPartial
      rw [if_pos hk, if_neg hcon.2.1]
    rw [if_neg hnf]
  rw [helim]

theorem gjIdRun (k : ℕ) : k ≤ 91 →
    gjLoop 0 k (gjAugment gjIdLeft, fun a : ℕ => a) =
      some (gjIdPartial k, fun a : ℕ => a) := by
  induction k with
  | zero =>
    intro _
    rw [gjLoop_zero]
    have h : gjAugment gjIdLeft = gjIdPartial 0 := by
      funext a c
      unfold gjAugment gjIdLeft gjIdPartial
      by_cases hc : c < 91
      · rw [if_pos hc, if_pos hc]
      · rw [if_neg hc, if_neg hc, if_neg (by omega)]
    rw [h]
  | succ k ih =>
    intro hk
    rw [gjLoop_append k 1 0 _, ih (by omega)]
    show gjLoop (0 + k) 1 (gjIdPartial k, fun a : ℕ => a) =
      some (gjIdPartial (k + 1), fun a : ℕ => a)
    rw [Nat.zero_add]
    show (gjStep (gjIdPartial k, fun a : ℕ => a) k).bind (gjLoop (k + 1) 0) =
      some (gjIdPartial (k + 1), fun a : ℕ => a)
    rw [gjIdStep k (by omega)]
    rfl

end FT8
namespace FT8

/-- C4: for any 174 x 182 GF(2) matrix whose columns 91 .. 181 are zero
on entry, if gauss_jordan returns ok = 1 then the product of the
original left 91 x 91 submatrix, row-permuted as recorded in which, with
the returned right-half 91 x 91 submatrix is the identity over GF(2);
and if at some pivot step r no row among r .. 173 holds a 1 in column r,
gauss_jordan fails with ok = 0. -/
theorem gauss_jordan_inverse_spec (L : ℕ → ℕ → ZMod 2) :
    (∀ mf wf, gauss_jordan (gjAugment L) (fun a => a) = some (mf, wf) →
      Matrix.of (fun a b : Fin 91 => L (wf a.val) b.val) *
        Matrix.of (fun k b : Fin 91 => mf k.val (91 + b.val)) = 1) ∧
    (∀ k st, k < 91 → gjLoop 0 k (gjAugment L, fun a => a) = some st →
      (∀ a, k ≤ a → a < 174 → st.1 a k = 0) →
      gauss_jordan (gjAugment L) (fun a => a) = none) := by
  constructor
  · intro mf wf hrun
    have hInv91 : gjInv L (0 + 91) (mf, wf) :=
      gjLoop_inv L 91 0 (gjAugment L, fun a => a) (mf, wf) (gjInv_init L)
        (by omega) hrun
    rw [Nat.zero_add] at hInv91
    obtain ⟨hA, hB, hC⟩ := hInv91
    have hRL : Matrix.of (fun a b : Fin 91 => mf a.val (91 + b.val)) *
        Matrix.of (fun k b : Fin 91 => L (wf k.val) b.val) = 1 := by
      ext a b
      rw [Matrix.mul_apply, Matrix.one_apply]
      simp only [Matrix.of_apply]
      have hsum : ∑ j ∈ Finset.range 91, mf a.val (91 + j) * L (wf j) b.val =
          if a.val = b.val then 1 else 0 := by
        have hCa := hC a.val b.val (by omega) b.isLt
        rw [hA a.val b.val (by omega) b.isLt, if_pos a.isLt, zero_add] at hCa
        exact hCa.symm
      rw [Fin.sum_univ_eq_sum_range
        (fun j => mf a.val (91 + j) * L (wf j) b.val) 91, hsum]
      by_cases hab : a = b
      · rw [if_pos hab, if_pos (congrArg Fin.val hab)]
      · rw [if_neg (fun h => hab (Fin.ext h)), if_neg hab]
    exact Matrix.mul_eq_one_comm.mp hRL
  · intro k st hk hrun hz
    unfold gauss_jordan
    rw [show (91 : ℕ) = k + (91 - k) by omega,
      gjLoop_append k (91 - k) 0 _, hrun]
    show gjLoop (0 + k) (91 - k) st = none
    rw [Nat.zero_add, show 91 - k = (91 - k - 1) + 1 by omega]
    show (gjStep st k).bind (gjLoop (k + 1) (91 - k - 1)) = none
    rw [gjStep_none st k hk hz]
    rfl

theorem gauss_jordan_inverse_witness :
    (Matrix.of (fun a b : Fin 91 => gjIdLeft a.val b.val) *
      Matrix.of (fun k b : Fin 91 => gjIdFinal k.val (91 + b.val)) = 1) ∧
    gauss_jordan (gjAugment gjZeroLeft) (fun a => a) = none := by
  constructor
  · exact (gauss_jordan_inverse_spec gjIdLeft).1 gjIdFinal (fun a => a)
      (gjIdRun 91 (le_refl 91))
  · exact (gauss_jordan_inverse_spec gjZeroLeft).2 0
      (gjAugment gjZeroLeft, fun a => a) (by omega) rfl
      (fun a _ _ => by
        show gjAugment gjZeroLeft a 0 = 0
        unfold gjAugment gjZeroLeft
        rw [if_pos (by omega)])

end FT8
